import Mathlib

/-!
Verification of the cinder chess engine core against its specification.

The definitions below are shallow embeddings of the Rust sources:
  - `src/lib/transposition.rs` (entry ordering, binary encoding),
  - `src/lib/transposition/table.rs` (the transposition table),
  - `src/lib/nnue/hidden.rs` (the hidden layer, scalar and SIMD backends),
  - `src/lib/uci.rs` (the `position` and `go` command handling),
  - `src/lib/chess/board.rs` (FEN printing and parsing).

Machine integers are embedded as `Nat`/`Int` with explicit reductions
modulo powers of two where overflow matters.  Fallible operations return
`Option` (with `none` standing for a panic or a returned error, as noted
at each definition).
-/

namespace Cinder

/-! ## Transposition entries (`src/lib/transposition.rs`) -/

/-- The bound kind of a `Transposition` (enum `Kind` in
`src/lib/transposition.rs`): `Lower < Upper < Exact` in declaration
order, which is also the derived `Ord`. -/
inductive Kind where
  | lower
  | upper
  | exact
deriving DecidableEq, Repr

/-- The enum discriminant, used both by the derived `Ord` and by the
binary encoding (`t.kind as _`). -/
def Kind.toNat : Kind → Nat
  | .lower => 0
  | .upper => 1
  | .exact => 2

/-- Modelled from the spec: the `Move` type lives in the chess module,
which is not among the provided sources.  The spec describes it as "a
compact encoding of (whence, whither, promotion?, ...)" that occupies 15
bits in the transposition-table slot (6 + 6 + 3).  The promotion code 0
means no promotion and codes 1–4 name the four promotion roles, so codes
5–7 are invalid and make decoding fail (the `Binary` impl for `Move` is
fallible: `DecodeTranspositionError` converts from its error). -/
structure Move where
  whence : Fin 64
  whither : Fin 64
  promotion : Option (Fin 4)
deriving DecidableEq, Repr

/-- Modelled from the spec: the 3-bit promotion code. -/
def Move.promoCode : Option (Fin 4) → Nat
  | none => 0
  | some p => p.val + 1

/-- Modelled from the spec: the compact 15-bit encoding of a `Move`. -/
def Move.encode (m : Move) : Nat :=
  (m.whence.val * 64 + m.whither.val) * 8 + Move.promoCode m.promotion

/-- Modelled from the spec: decoding the 15-bit move encoding; fails
(`none`) on the three unused promotion codes. -/
def Move.decode (w : Nat) : Option Move :=
  let code := w % 8
  let whither := w / 8 % 64
  let whence := w / 512 % 64
  if h : code = 0 then
    some ⟨⟨whence, Nat.mod_lt _ (by norm_num)⟩, ⟨whither, Nat.mod_lt _ (by norm_num)⟩, none⟩
  else if h4 : code - 1 < 4 then
    some ⟨⟨whence, Nat.mod_lt _ (by norm_num)⟩, ⟨whither, Nat.mod_lt _ (by norm_num)⟩,
      some ⟨code - 1, h4⟩⟩
  else
    none

/-- A partial search result (struct `Transposition` in
`src/lib/transposition.rs`).  `depth` is a `u8`, `score` an `i16`. -/
structure Transposition where
  kind : Kind
  depth : Nat
  score : Int
  best : Move
deriving DecidableEq, Repr

/-- The strict order from `impl Ord for Transposition`:
`(self.depth, self.kind).cmp(&(other.depth, other.kind))`, i.e. the
lexicographic order on (depth, kind).  `lexGT a b` states that `a`
compares strictly greater than `b`. -/
def Transposition.lexGT (a b : Transposition) : Bool :=
  b.depth < a.depth || (a.depth == b.depth && b.kind.toNat < a.kind.toNat)

/-- `Transposition::MAX_DEPTH = u8::MAX >> 3 = 31`. -/
def Transposition.MAX_DEPTH : Nat := 255 >>> 3

/-- `Transposition::new`: asserts `depth <= MAX_DEPTH` (the panic is
embedded as `none`). -/
def Transposition.new (kind : Kind) (score : Int) (depth : Nat) (best : Move) :
    Option Transposition :=
  if depth ≤ Transposition.MAX_DEPTH then some ⟨kind, depth, score, best⟩ else none

/-- `Transposition::lower`. -/
def Transposition.lower (score : Int) (depth : Nat) (best : Move) : Option Transposition :=
  Transposition.new .lower score depth best

/-- `Transposition::upper`. -/
def Transposition.upper (score : Int) (depth : Nat) (best : Move) : Option Transposition :=
  Transposition.new .upper score depth best

/-- `Transposition::exact`. -/
def Transposition.exact (score : Int) (depth : Nat) (best : Move) : Option Transposition :=
  Transposition.new .exact score depth best

/-- The two's-complement 16-bit image of an `i16` score. -/
def toU16 (s : Int) : Nat := (s % 65536).toNat

/-- The signed value of a 16-bit word. -/
def ofU16 (v : Nat) : Int := if v < 32768 then (v : Int) else (v : Int) - 65536

/-- Field bounds that every `Transposition` held by the Rust program
satisfies by construction: `depth` fits the invariant `0..=MAX_DEPTH`
enforced by `Transposition::new` and `score` is an `i16`. -/
def Transposition.Valid (t : Transposition) : Prop :=
  t.depth < 32 ∧ -32768 ≤ t.score ∧ t.score < 32768

instance (t : Transposition) : Decidable t.Valid := by
  unfold Transposition.Valid; infer_instance

/-- `impl Binary for OptionalSignedTransposition`, `encode`: `None`
encodes to the all-zero word; `Some((t, sig))` pushes in order the
signature (26 bits), the move (15), the score (16), the depth (5) and
the kind (2), so the signature lands in the high bits.  `Bits::push`
appends at the low end, shifting previous content up (modelled from the
spec's slot layout `(signature:26, best:15, score:16, depth:5, kind:2)`,
as `util::Bits` is not among the provided sources). -/
def encodeTT : Option (Transposition × Nat) → Nat
  | none => 0
  | some (t, sig) =>
    (((sig * 2 ^ 15 + t.best.encode) * 2 ^ 16 + toU16 t.score) * 2 ^ 5 + t.depth % 32) * 2 ^ 2 +
      t.kind.toNat

/-- `impl Binary for OptionalSignedTransposition`, `decode`: the
all-zero word decodes to `None`; otherwise the fields are popped in
reverse order; an invalid kind index (3) or move code fails
(`DecodeTranspositionError`, embedded as the outer `none`). -/
def decodeTT (w : Nat) : Option (Option (Transposition × Nat)) :=
  if w = 0 then
    some none
  else
    let kindCode := w % 4
    let depth := w / 4 % 32
    let score := w / 128 % 65536
    let bestCode := w / 2 ^ 23 % 2 ^ 15
    let sig := w / 2 ^ 38 % 2 ^ 26
    let kind : Option Kind :=
      if kindCode = 0 then some .lower
      else if kindCode = 1 then some .upper
      else if kindCode = 2 then some .exact
      else none
    match kind, Move.decode bestCode with
    | some k, some m => some (some (⟨k, depth, ofU16 score, m⟩, sig))
    | _, _ => none

/-! ## Transposition table (`src/lib/transposition/table.rs`) -/

/-- The transposition `Table`.  The underlying `util::Cache` (not among
the provided sources) is modelled from the spec as a flat array of
64-bit words addressed by slot index; `slots` maps each index to the
word it holds and `capacity` is the power-of-two slot count. -/
structure Table where
  capacity : Nat
  slots : Nat → Nat

/-- `Table::signature_of`: the high 26 bits of the 64-bit Zobrist key
(`key[(Zobrist::WIDTH - Signature::WIDTH)..]`). -/
def Table.signatureOf (key : Nat) : Nat := key / 2 ^ 38

/-- `Table::index_of`: `key.load::<usize>() & (self.capacity() - 1)`. -/
def Table.indexOf (tt : Table) (key : Nat) : Nat := key &&& (tt.capacity - 1)

/-- Replaces the word held by one slot (`Cache::store`, modelled from
the spec). -/
def Table.store (tt : Table) (idx w : Nat) : Table :=
  ⟨tt.capacity, fun i => if i = idx then w else tt.slots i⟩

/-- `Table::get`: decodes the slot addressed by `key` and returns the
entry iff its signature matches.  The outer `none` embeds the
`expect("expected valid encoding")` panic on an undecodable word. -/
def Table.get (tt : Table) (key : Nat) : Option (Option Transposition) :=
  match decodeTT (tt.slots (tt.indexOf key)) with
  | none => none
  | some none => some none
  | some (some (t, s)) =>
    some (if s = Table.signatureOf key then some t else none)

/-- `Table::set`: re-encodes `(transposition, signature_of key)` and
updates the slot; the closure keeps the existing word iff it decodes to
an entry that compares strictly greater than the incoming one — the
stored signature is ignored (`Some((t, _))`).  The outer `none` embeds
the decoding panic. -/
def Table.set (tt : Table) (key : Nat) (transposition : Transposition) : Option Table :=
  let sig := Table.signatureOf key
  let register := encodeTT (some (transposition, sig))
  let idx := tt.indexOf key
  match decodeTT (tt.slots idx) with
  | none => none
  | some (some (t, _)) =>
    if Transposition.lexGT t transposition then some tt else some (tt.store idx register)
  | some none => some (tt.store idx register)

/-! ## Basic facts about the slot encoding -/

lemma Move.encode_lt (m : Move) : m.encode < 2 ^ 15 := by
  obtain ⟨⟨a, ha⟩, ⟨b, hb⟩, p⟩ := m
  cases p with
  | none => simp only [Move.encode, Move.promoCode]; omega
  | some q =>
    obtain ⟨c, hc⟩ := q
    simp only [Move.encode, Move.promoCode]
    omega

lemma Move.decode_encode (m : Move) : Move.decode m.encode = some m := by
  obtain ⟨⟨a, ha⟩, ⟨b, hb⟩, p⟩ := m
  cases p with
  | none =>
    simp only [Move.decode, Move.encode, Move.promoCode]
    rw [dif_pos (by omega)]
    simp only [Option.some.injEq, Move.mk.injEq]
    refine ⟨Fin.ext ?_, Fin.ext ?_, trivial⟩ <;> simp <;> omega
  | some q =>
    obtain ⟨c, hc⟩ := q
    simp only [Move.decode, Move.encode, Move.promoCode]
    rw [dif_neg (by omega), dif_pos (by omega)]
    simp only [Option.some.injEq, Move.mk.injEq]
    refine ⟨Fin.ext ?_, Fin.ext ?_, ?_⟩
    · simp; omega
    · simp; omega
    · simp only [Option.some.injEq, Fin.mk.injEq]
      omega

lemma toU16_lt (s : Int) : toU16 s < 65536 := by
  unfold toU16
  omega

lemma ofU16_toU16 (s : Int) (h1 : -32768 ≤ s) (h2 : s < 32768) : ofU16 (toU16 s) = s := by
  unfold toU16 ofU16
  omega

lemma Kind.toNat_le (k : Kind) : k.toNat ≤ 2 := by cases k <;> simp [Kind.toNat]

/-- Field extraction from the packed 64-bit word. -/
lemma encodeTT_fields (t : Transposition) (sig : Nat) (hv : t.Valid) (hs : sig < 2 ^ 26) :
    encodeTT (some (t, sig)) % 4 = t.kind.toNat ∧
    encodeTT (some (t, sig)) / 4 % 32 = t.depth ∧
    encodeTT (some (t, sig)) / 128 % 65536 = toU16 t.score ∧
    encodeTT (some (t, sig)) / 2 ^ 23 % 2 ^ 15 = t.best.encode ∧
    encodeTT (some (t, sig)) / 2 ^ 38 % 2 ^ 26 = sig := by
  obtain ⟨hd, hs1, hs2⟩ := hv
  have hB := Move.encode_lt t.best
  have hS := toU16_lt t.score
  have hK := Kind.toNat_le t.kind
  simp only [encodeTT]
  omega

lemma decodeTT_encodeTT_some (t : Transposition) (sig : Nat) (hv : t.Valid)
    (hs : sig < 2 ^ 26) (hz : encodeTT (some (t, sig)) ≠ 0) :
    decodeTT (encodeTT (some (t, sig))) = some (some (t, sig)) := by
  obtain ⟨hk, hd, hsc, hb, hsg⟩ := encodeTT_fields t sig hv hs
  unfold decodeTT
  rw [if_neg hz]
  simp only [hk, hd, hsc, hb, hsg, Move.decode_encode, ofU16_toU16 t.score hv.2.1 hv.2.2]
  cases hK : t.kind <;> simp [Kind.toNat, ← hK]

lemma encodeTT_inj (a b : Transposition) (s1 s2 : Nat) (ha : a.Valid) (hb : b.Valid)
    (hs1 : s1 < 2 ^ 26) (hs2 : s2 < 2 ^ 26)
    (h : encodeTT (some (a, s1)) = encodeTT (some (b, s2))) : a = b ∧ s1 = s2 := by
  obtain ⟨hk, hd, hsc, hbst, hsg⟩ := encodeTT_fields a s1 ha hs1
  obtain ⟨hk2, hd2, hsc2, hbst2, hsg2⟩ := encodeTT_fields b s2 hb hs2
  rw [h] at hk hd hsc hbst hsg
  have hkind : a.kind = b.kind := by
    have := hk.symm.trans hk2
    cases hA : a.kind <;> cases hB : b.kind <;> simp_all [Kind.toNat]
  have hbest : a.best = b.best := by
    have h1 := Move.decode_encode a.best
    have h2 := Move.decode_encode b.best
    rw [hbst.symm.trans hbst2] at h1
    rw [h1] at h2
    exact Option.some.inj h2
  have hscore : a.score = b.score := by
    have := hsc.symm.trans hsc2
    rw [← ofU16_toU16 a.score ha.2.1 ha.2.2, ← ofU16_toU16 b.score hb.2.1 hb.2.2, this]
  obtain ⟨_, _, _, _⟩ := a
  obtain ⟨_, _, _, _⟩ := b
  simp_all

lemma Table.store_slots_self (tt : Table) (idx w : Nat) : (tt.store idx w).slots idx = w := by
  simp [Table.store]

lemma lexGT_irrefl (a : Transposition) : Transposition.lexGT a a = false := by
  simp [Transposition.lexGT]

lemma lexGT_true_iff (a b : Transposition) :
    Transposition.lexGT a b = true ↔
      b.depth < a.depth ∨ (a.depth = b.depth ∧ b.kind.toNat < a.kind.toNat) := by
  simp [Transposition.lexGT]

lemma lexGT_false_iff (a b : Transposition) :
    Transposition.lexGT a b = false ↔
      a.depth < b.depth ∨ (a.depth = b.depth ∧ a.kind.toNat ≤ b.kind.toNat) := by
  simp only [Transposition.lexGT, Bool.or_eq_false_iff, Bool.and_eq_false_iff,
    decide_eq_false_iff_not, beq_eq_false_iff_ne, ne_eq, not_lt]
  omega

/-- How `Table::set` acts on a slot currently holding the valid entry
`(a, s)`: it keeps the slot iff `a` compares strictly greater than the
incoming entry; the comparison never consults the stored signature. -/
lemma Table.set_on_slot (tt : Table) (h : Nat) (a b : Transposition) (s : Nat)
    (ha : a.Valid) (hs : s < 2 ^ 26)
    (hslot : tt.slots (tt.indexOf h) = encodeTT (some (a, s))) :
    tt.set h b =
      if Transposition.lexGT a b then some tt
      else some (tt.store (tt.indexOf h) (encodeTT (some (b, Table.signatureOf h)))) := by
  unfold Table.set
  simp only [hslot]
  by_cases hz : encodeTT (some (a, s)) = 0
  · have hf := encodeTT_fields a s ha hs
    rw [hz] at hf
    have hga : Transposition.lexGT a b = false := by
      rw [lexGT_false_iff]
      omega
    rw [hz, show decodeTT 0 = some none from rfl, hga]
    rfl
  · rw [decodeTT_encodeTT_some a s ha hs hz]

/-- Claim C1: For a transposition table whose slot for key `h` holds entry
`a` under the matching signature, a subsequent `set(h, b)` succeeds and
leaves the slot holding `b` if and only if `(b.depth, b.kind)` is
greater than or equal to `(a.depth, a.kind)` in the lexicographic order
with `Lower < Upper < Exact` at equal depth; otherwise the slot still
holds `a`. -/
theorem tt_replacement_policy (tt : Table) (h : Nat) (a b : Transposition)
    (ha : a.Valid) (hb : b.Valid) (hsig : Table.signatureOf h < 2 ^ 26)
    (hslot : tt.slots (tt.indexOf h) = encodeTT (some (a, Table.signatureOf h))) :
    ∃ tt2, tt.set h b = some tt2 ∧
      (tt2.slots (tt.indexOf h) = encodeTT (some (b, Table.signatureOf h)) ↔
        (a.depth < b.depth ∨ (a.depth = b.depth ∧ a.kind.toNat ≤ b.kind.toNat))) ∧
      (¬(a.depth < b.depth ∨ (a.depth = b.depth ∧ a.kind.toNat ≤ b.kind.toNat)) →
        tt2.slots (tt.indexOf h) = encodeTT (some (a, Table.signatureOf h))) := by
  rw [Table.set_on_slot tt h a b _ ha hsig hslot]
  by_cases hg : Transposition.lexGT a b
  · refine ⟨tt, by rw [if_pos hg], ?_, fun _ => hslot⟩
    rw [hslot]
    constructor
    · intro he
      obtain ⟨hab, -⟩ := encodeTT_inj a b _ _ ha hb hsig hsig he
      rw [hab, lexGT_irrefl] at hg
      exact absurd hg (by simp)
    · intro hcond
      rw [lexGT_true_iff] at hg
      omega
  · refine ⟨_, by rw [if_neg hg], ?_, ?_⟩
    · rw [Table.store_slots_self]
      have := (lexGT_false_iff a b).mp (by simpa using hg)
      simp only [true_iff]
      exact this
    · intro hcond
      exact absurd ((lexGT_false_iff a b).mp (by simpa using hg)) hcond

/-- A sample move used in concrete instantiations. -/
def zeroMove : Move := ⟨0, 0, none⟩

/-- A table with a single slot holding `(⟨Lower, 1, 0, zeroMove⟩, 0)`. -/
def c1Table : Table := ⟨1, fun _ => encodeTT (some (⟨.lower, 1, 0, zeroMove⟩, 0))⟩

/-- Witness for `tt_replacement_policy` at a concrete table and key. -/
theorem tt_replacement_policy_witness :
    (⟨Kind.lower, 1, 0, zeroMove⟩ : Transposition).Valid ∧
    (⟨Kind.exact, 1, 0, zeroMove⟩ : Transposition).Valid ∧
    Table.signatureOf 0 < 2 ^ 26 ∧
    (∃ tt2, c1Table.set 0 ⟨Kind.exact, 1, 0, zeroMove⟩ = some tt2 ∧
      (tt2.slots (c1Table.indexOf 0) =
          encodeTT (some (⟨Kind.exact, 1, 0, zeroMove⟩, Table.signatureOf 0)) ↔
        ((1 : Nat) < 1 ∨ ((1 : Nat) = 1 ∧ Kind.toNat .lower ≤ Kind.toNat .exact))) ∧
      (¬((1 : Nat) < 1 ∨ ((1 : Nat) = 1 ∧ Kind.toNat .lower ≤ Kind.toNat .exact)) →
        tt2.slots (c1Table.indexOf 0) =
          encodeTT (some (⟨Kind.lower, 1, 0, zeroMove⟩, Table.signatureOf 0)))) :=
  ⟨by decide, by decide, by decide,
    tt_replacement_policy c1Table 0 _ _ (by decide) (by decide) (by decide) rfl⟩

/-- The deeper entry stored with a mismatching signature in the C2
counterexample. -/
def c2Stored : Transposition := ⟨.lower, 2, 0, zeroMove⟩

/-- The shallower incoming entry in the C2 counterexample. -/
def c2Incoming : Transposition := ⟨.lower, 1, 0, zeroMove⟩

/-- A table with a single slot holding `c2Stored` under signature 5,
which does not match the signature of key 0. -/
def c2Table : Table := ⟨1, fun _ => encodeTT (some (c2Stored, 5))⟩

/-- Claim C2, counterexample: The slot holds an entry whose 26-bit
signature (5) does not match that of key 0 (namely 0), yet
`set(0, c2Incoming)` does not overwrite it: the stored entry is deeper,
so it survives — a signature mismatch does not make the incoming entry
win. -/
theorem tt_set_mismatch_cex :
    Table.signatureOf 0 ≠ 5 ∧
    c2Table.slots (c2Table.indexOf 0) = encodeTT (some (c2Stored, 5)) ∧
    (c2Table.set 0 c2Incoming).map (fun tt2 => tt2.slots (c2Table.indexOf 0)) =
      some (encodeTT (some (c2Stored, 5))) ∧
    encodeTT (some (c2Stored, 5)) ≠ encodeTT (some (c2Incoming, Table.signatureOf 0)) := by
  decide

/-- Claim C2, amended: The replacement decision never consults the stored
signature: whatever signature `s` the existing entry `a` was stored
under — matching or not — `set(h, b)` keeps `a` iff `(a.depth, a.kind)`
is strictly greater than `(b.depth, b.kind)`, and otherwise overwrites
the slot with `b` under the signature of `h`. -/
theorem tt_set_ignores_signature (tt : Table) (h : Nat) (a b : Transposition) (s : Nat)
    (ha : a.Valid) (hs : s < 2 ^ 26)
    (hslot : tt.slots (tt.indexOf h) = encodeTT (some (a, s))) :
    ∃ tt2, tt.set h b = some tt2 ∧
      (Transposition.lexGT a b = true →
        tt2 = tt ∧ tt2.slots (tt.indexOf h) = encodeTT (some (a, s))) ∧
      (Transposition.lexGT a b = false →
        tt2.slots (tt.indexOf h) = encodeTT (some (b, Table.signatureOf h))) := by
  rw [Table.set_on_slot tt h a b s ha hs hslot]
  by_cases hg : Transposition.lexGT a b
  · exact ⟨tt, by rw [if_pos hg], fun _ => ⟨rfl, hslot⟩, fun hf => absurd hg (by simp [hf])⟩
  · refine ⟨_, by rw [if_neg hg], fun ht => absurd ht (by simpa using hg), ?_⟩
    intro _
    exact Table.store_slots_self ..

/-- Witness for `tt_set_ignores_signature` at the C2 counterexample
table. -/
theorem tt_set_ignores_signature_witness :
    c2Stored.Valid ∧ (5 : Nat) < 2 ^ 26 ∧
    (∃ tt2, c2Table.set 0 c2Incoming = some tt2 ∧
      (Transposition.lexGT c2Stored c2Incoming = true →
        tt2 = c2Table ∧ tt2.slots (c2Table.indexOf 0) = encodeTT (some (c2Stored, 5))) ∧
      (Transposition.lexGT c2Stored c2Incoming = false →
        tt2.slots (c2Table.indexOf 0) =
          encodeTT (some (c2Incoming, Table.signatureOf 0)))) :=
  ⟨by decide, by decide,
    tt_set_ignores_signature c2Table 0 c2Stored c2Incoming 5 (by decide) (by decide) rfl⟩

/-- Claim C8, amended: Decoding inverts encoding for every valid signed
entry except the single one whose packed word is all-zero (the entry
with kind `Lower`, depth 0, score 0, the move whose 15-bit code is 0,
and signature 0); the empty entry round-trips, and the all-zero word
decodes to the empty entry. -/
theorem tt_encoding_roundtrip :
    (∀ (t : Transposition) (sig : Nat), t.Valid → sig < 2 ^ 26 →
      encodeTT (some (t, sig)) ≠ 0 →
      decodeTT (encodeTT (some (t, sig))) = some (some (t, sig))) ∧
    decodeTT (encodeTT none) = some none ∧ decodeTT 0 = some none :=
  ⟨fun t sig hv hs hz => decodeTT_encodeTT_some t sig hv hs hz, rfl, rfl⟩

/-- Witness for `tt_encoding_roundtrip` at a concrete entry. -/
theorem tt_encoding_roundtrip_witness :
    decodeTT (encodeTT (some (⟨Kind.exact, 3, -5, zeroMove⟩, 7))) =
      some (some (⟨Kind.exact, 3, -5, zeroMove⟩, 7)) :=
  tt_encoding_roundtrip.1 ⟨Kind.exact, 3, -5, zeroMove⟩ 7 (by decide) (by decide) (by decide)

/-- Claim C8, counterexample: The valid entry with kind `Lower`, depth 0,
score 0, the zero move and signature 0 encodes to the all-zero word,
which decodes to the empty entry rather than back to itself. -/
theorem tt_encoding_roundtrip_cex :
    (⟨Kind.lower, 0, 0, zeroMove⟩ : Transposition).Valid ∧
    decodeTT (encodeTT (some (⟨Kind.lower, 0, 0, zeroMove⟩, 0))) ≠
      some (some (⟨Kind.lower, 0, 0, zeroMove⟩, 0)) := by
  decide

/-- Claim C10: `Transposition::MAX_DEPTH` is 31; the public constructors
`lower`, `upper` and `exact` succeed exactly when `depth ≤ 31`,
returning an entry whose `kind`, `depth`, `score` and `best` fields are
the arguments unchanged, and panic (modelled as `none`) when
`depth > 31`; consequently the 5-bit depth field of the binary encoding
holds `depth` exactly, with no truncation, for every constructor-built
entry. -/
theorem transposition_constructor_depth (s : Int) (d : Nat) (m : Move) (sig : Nat) :
    Transposition.MAX_DEPTH = 31 ∧
    (d ≤ 31 →
      Transposition.lower s d m = some ⟨.lower, d, s, m⟩ ∧
      Transposition.upper s d m = some ⟨.upper, d, s, m⟩ ∧
      Transposition.exact s d m = some ⟨.exact, d, s, m⟩ ∧
      ∀ k : Kind, encodeTT (some (⟨k, d, s, m⟩, sig)) / 4 % 32 = d) ∧
    (31 < d →
      Transposition.lower s d m = none ∧
      Transposition.upper s d m = none ∧
      Transposition.exact s d m = none) := by
  refine ⟨rfl, fun hle => ?_, fun hgt => ?_⟩
  · have hif : d ≤ Transposition.MAX_DEPTH := hle
    refine ⟨?_, ?_, ?_, ?_⟩
    · simp [Transposition.lower, Transposition.new, hif]
    · simp [Transposition.upper, Transposition.new, hif]
    · simp [Transposition.exact, Transposition.new, hif]
    · intro k
      have hK := Kind.toNat_le k
      simp only [encodeTT]
      omega
  · have hif : ¬(d ≤ Transposition.MAX_DEPTH) := by
      simp only [Transposition.MAX_DEPTH]
      omega
    refine ⟨?_, ?_, ?_⟩ <;>
      simp [Transposition.lower, Transposition.upper, Transposition.exact,
        Transposition.new, hif]

/-- Witness for `transposition_constructor_depth` at concrete inputs. -/
theorem transposition_constructor_depth_witness :
    Transposition.MAX_DEPTH = 31 ∧
    ((3 : Nat) ≤ 31 →
      Transposition.lower (-7) 3 zeroMove = some ⟨.lower, 3, -7, zeroMove⟩ ∧
      Transposition.upper (-7) 3 zeroMove = some ⟨.upper, 3, -7, zeroMove⟩ ∧
      Transposition.exact (-7) 3 zeroMove = some ⟨.exact, 3, -7, zeroMove⟩ ∧
      ∀ k : Kind, encodeTT (some (⟨k, 3, -7, zeroMove⟩, 11)) / 4 % 32 = 3) ∧
    ((31 : Nat) < 3 →
      Transposition.lower (-7) 3 zeroMove = none ∧
      Transposition.upper (-7) 3 zeroMove = none ∧
      Transposition.exact (-7) 3 zeroMove = none) :=
  transposition_constructor_depth (-7) 3 zeroMove 11

/-! ## NNUE hidden layer, scalar reference (`src/lib/nnue/hidden.rs`) -/

/-- Two's-complement reduction of an intermediate into the `i32` range,
modelling the wrapping `+=` accumulation on `i32`. -/
def wrap32 (x : Int) : Int := (x + 2 ^ 31) % 2 ^ 32 - 2 ^ 31

/-- One summand of `Hidden::scalar`:
`(((x as i32).clamp(0, 255) << 3).pow(2) + 16384) >> 15`.  The shifted
square is non-negative, so `>> 15` is division by `2^15`. -/
def sqrTerm (x : Int) : Int := ((max 0 (min x 255) * 8) ^ 2 + 16384) / 32768

/-- The accumulation of one side's products in `Hidden::scalar`:
`y += a as i32 * q` over the zipped weight and input arrays. -/
def Hidden.sideAcc (w x : Nat → Int) (n : Nat) (y : Int) : Int :=
  (List.range n).foldl (fun acc i => wrap32 (acc + w i * sqrTerm (x i))) y

/-- `Hidden::scalar`: starts from the bias and folds both sides in
order (`us` with `weight[0]`, then `them` with `weight[1]`).  Arrays of
length `n` are embedded as functions out of `Nat` read on `[0, n)`. -/
def Hidden.scalar (n : Nat) (bias : Int) (wus wthem us them : Nat → Int) : Int :=
  Hidden.sideAcc wthem them n (Hidden.sideAcc wus us n bias)

lemma wrap32_add_left (a b : Int) : wrap32 (wrap32 a + b) = wrap32 (a + b) := by
  unfold wrap32
  omega

lemma wrap32_fixed (a : Int) (h1 : -2 ^ 31 ≤ a) (h2 : a < 2 ^ 31) : wrap32 a = a := by
  unfold wrap32
  omega

lemma foldl_wrap32 (g : Nat → Int) (l : List Nat) (y : Int) :
    l.foldl (fun acc i => wrap32 (acc + g i)) (wrap32 y) =
      wrap32 (y + (l.map g).sum) := by
  induction l generalizing y with
  | nil => simp
  | cons a l ih =>
    simp only [List.foldl_cons, List.map_cons, List.sum_cons]
    rw [wrap32_add_left, ih]
    ring_nf

lemma Hidden.sideAcc_sum (w x : Nat → Int) (n : Nat) (y : Int) :
    Hidden.sideAcc w x n (wrap32 y) =
      wrap32 (y + ((List.range n).map (fun i => w i * sqrTerm (x i))).sum) :=
  foldl_wrap32 _ _ y

lemma scalar_eq_wrap32 (n : Nat) (bias : Int) (wus wthem us them : Nat → Int)
    (hb1 : -2 ^ 31 ≤ bias) (hb2 : bias < 2 ^ 31) :
    Hidden.scalar n bias wus wthem us them =
      wrap32 (bias + ((List.range n).map (fun i => wus i * sqrTerm (us i))).sum
                   + ((List.range n).map (fun i => wthem i * sqrTerm (them i))).sum) := by
  unfold Hidden.scalar
  conv_lhs => rw [← wrap32_fixed bias hb1 hb2]
  rw [Hidden.sideAcc_sum, Hidden.sideAcc_sum]

/-- Claim C6: `Hidden::scalar` returns exactly
`bias + Σ_{side ∈ (us, them)} Σ_{i < n} weight[side][i] * q(side[i])`
with `q(x) = (((clamp(x,0,255) << 3))^2 + 16384) >> 15`, computed in
exact two's-complement `i32` arithmetic (the `wrap32` reduction of the
mathematical sum). -/
theorem hidden_scalar_spec (n : Nat) (bias : Int) (wus wthem us them : Nat → Int)
    (hb1 : -2 ^ 31 ≤ bias) (hb2 : bias < 2 ^ 31) :
    Hidden.scalar n bias wus wthem us them =
      wrap32 (bias + ((List.range n).map (fun i => wus i * sqrTerm (us i))).sum
                   + ((List.range n).map (fun i => wthem i * sqrTerm (them i))).sum) :=
  scalar_eq_wrap32 n bias wus wthem us them hb1 hb2

/-- Witness for `hidden_scalar_spec` at concrete inputs of length 2. -/
theorem hidden_scalar_spec_witness :
    -2 ^ 31 ≤ (5 : Int) ∧ (5 : Int) < 2 ^ 31 ∧
    Hidden.scalar 2 5 (fun _ => 1) (fun _ => -1) (fun _ => 300) (fun _ => -3) =
      wrap32 (5 + ((List.range 2).map (fun i => (fun _ => (1 : Int)) i * sqrTerm ((fun _ => (300 : Int)) i))).sum
                + ((List.range 2).map (fun i => (fun _ => (-1 : Int)) i * sqrTerm ((fun _ => (-3 : Int)) i))).sum) :=
  ⟨by norm_num, by norm_num,
    hidden_scalar_spec 2 5 (fun _ => 1) (fun _ => -1) (fun _ => 300) (fun _ => -3)
      (by norm_num) (by norm_num)⟩

/-! ## UCI `position … moves` handling (`src/lib/uci.rs`) -/

/-- The move-application loop of the `position` command: each token is
matched against the legal moves of the running position; the first
rejected token aborts with an error (`none`).  `tryPlay` abstracts one
step (`pos.moves().…find(…)` followed by `pos.play(m)`): the chess
position type and move legality are modelled from the spec, as the
`Evaluator`/`Position` sources are not under `src/`. -/
def Uci.applyMoves {Pos : Type} (tryPlay : Pos → String → Option Pos)
    (pos : Pos) : List String → Option Pos
  | [] => some pos
  | t :: ts =>
    match tryPlay pos t with
    | none => none
    | some p => Uci.applyMoves tryPlay p ts

/-- The `position` branch of `Uci::execute`: moves are applied to a
local position seeded from the parsed start position; only when every
token succeeds does `self.position = pos` run, so an error leaves the
engine's prior position in place. -/
def Uci.executePosition {Pos : Type} (tryPlay : Pos → String → Option Pos)
    (prior start : Pos) (tokens : List String) : Pos :=
  match Uci.applyMoves tryPlay start tokens with
  | some p => p
  | none => prior

/-- Claim C4, counterexample: With a position state embedded as `Nat`, a
prior engine position 100, start position 0 and a step that rejects the
token `"bad"`: the command `… moves ok bad` fails at its second token
after the prefix `ok` reached position 1, yet the engine ends at the
prior position 100, not at 1 — the successful prefix is rolled back. -/
theorem uci_position_rollback_cex :
    Uci.executePosition (fun (p : Nat) t => if t = "bad" then none else some (p + 1))
      100 0 ["ok", "bad"] = 100 ∧
    Uci.applyMoves (fun (p : Nat) t => if t = "bad" then none else some (p + 1))
      0 ["ok"] = some 1 ∧
    (fun (p : Nat) t => if t = "bad" then none else some (p + 1)) 1 "bad" = none ∧
    (100 : Nat) ≠ 1 := by
  decide

/-- Claim C4, amended: When the first illegal or unparsable token is
reached, the whole `position` command is discarded: the engine keeps the
position it had before the command; the earlier successful moves are not
committed. -/
theorem uci_position_abort_discards_prefix {Pos : Type}
    (tryPlay : Pos → String → Option Pos) (prior start : Pos)
    (pre post : List String) (t : String) (p : Pos)
    (hpre : Uci.applyMoves tryPlay start pre = some p)
    (hfail : tryPlay p t = none) :
    Uci.executePosition tryPlay prior start (pre ++ t :: post) = prior := by
  unfold Uci.executePosition
  suffices h : Uci.applyMoves tryPlay start (pre ++ t :: post) = none by rw [h]
  induction pre generalizing start with
  | nil =>
    simp only [Uci.applyMoves] at hpre
    obtain rfl := Option.some.inj hpre
    simp [Uci.applyMoves, hfail]
  | cons a l ih =>
    simp only [Uci.applyMoves] at hpre ⊢
    cases hq : tryPlay start a with
    | none => simp [hq] at hpre
    | some q =>
      rw [hq] at hpre
      simp only [List.cons_append]
      exact ih q hpre

/-- Witness for `uci_position_abort_discards_prefix` at the concrete
counterexample instance. -/
theorem uci_position_abort_discards_prefix_witness :
    Uci.applyMoves (fun (p : Nat) t => if t = "bad" then none else some (p + 1))
      0 ["ok"] = some 1 ∧
    (fun (p : Nat) t => if t = "bad" then none else some (p + 1)) 1 "bad" = none ∧
    Uci.executePosition (fun (p : Nat) t => if t = "bad" then none else some (p + 1))
      100 0 (["ok"] ++ "bad" :: []) = 100 :=
  ⟨by decide, by decide,
    uci_position_abort_discards_prefix _ 100 0 ["ok"] [] "bad" 1 (by decide) (by decide)⟩

/-! ## UCI `go` output (`src/lib/uci.rs`) -/

/-- One line sent to the UCI output sink by `Uci::go`. -/
inductive Line where
  | info (depth : Nat) (scoreIsMate : Bool) (scoreValue : Int) (pv : List String)
  | bestmove (m : String)
deriving DecidableEq

/-- Whether a line is an `info …` line. -/
def Line.isInfo : Line → Bool
  | .info .. => true
  | .bestmove _ => false

/-- Whether a line is a `bestmove …` line. -/
def Line.isBestmove : Line → Bool
  | .info .. => false
  | .bestmove _ => true

/-- Modelled from the spec: the search `Report` (the `search` module is
not under `src/`) — a principal variation (whose rendered moves we keep
as strings), the completed depth, the centipawn score and its optional
mate-ply reading (`Score::mate()`).  `head()` is the first move of the
pv, which the spec allows to be absent (a terminal root has no legal
moves). -/
structure Report where
  pv : List String
  depth : Nat
  score : Int
  mate : Option Int

/-- The output phase of `Uci::go` once the search result is in hand:
always format one `info` line (cp or mate according to
`result.score().mate()`, with the truncating division of Rust `/`), then
send `bestmove m` only under `if let Some(m) = result.head()`. -/
def Uci.goOutput (r : Report) : List Line :=
  let info : Line :=
    match r.mate with
    | none => .info r.depth false r.score r.pv
    | some p =>
      if p > 0 then .info r.depth true (Int.tdiv (p + 1) 2) r.pv
      else .info r.depth true (Int.tdiv (p - 1) 2) r.pv
  match r.pv.head? with
  | some m => [info, .bestmove m]
  | none => [info]

/-- Claim C5, counterexample: A `go` whose search completes on a position
with no legal moves (empty principal variation) emits the `info` line
but no `bestmove` line at all, so "exactly one `bestmove` per completed
`go`" fails. -/
theorem uci_go_output_cex :
    Uci.goOutput ⟨[], 0, 0, none⟩ = [Line.info 0 false 0 []] ∧
    (Uci.goOutput ⟨[], 0, 0, none⟩).countP Line.isBestmove = 0 := by
  decide

/-- Claim C5, amended: Every completed `go` emits exactly one `info`
line, and a `bestmove` line — at most one, and placed right after the
`info` line — exactly when the report's principal variation is
non-empty, naming its head move. -/
theorem uci_go_output_lines (r : Report) :
    (Uci.goOutput r).countP Line.isInfo = 1 ∧
    (Uci.goOutput r).countP Line.isBestmove = (if r.pv = [] then 0 else 1) ∧
    (r.pv ≠ [] → ∃ d b v m, Uci.goOutput r = [Line.info d b v r.pv, Line.bestmove m] ∧
      r.pv.head? = some m) := by
  unfold Uci.goOutput
  cases hpv : r.pv with
  | nil =>
    cases hm : r.mate with
    | none => simp [List.countP, List.countP.go, Line.isInfo, Line.isBestmove, hpv]
    | some p =>
      by_cases hp : p > 0 <;>
        simp [hp, List.countP, List.countP.go, Line.isInfo, Line.isBestmove, hpv]
  | cons m ms =>
    cases hm : r.mate with
    | none =>
      refine ⟨by simp [List.countP, List.countP.go, Line.isInfo], ?_, ?_⟩
      · simp [List.countP, List.countP.go, Line.isBestmove]
      · intro _
        exact ⟨r.depth, false, r.score, m, by simp [hpv], by simp [hpv]⟩
    | some p =>
      by_cases hp : p > 0
      · refine ⟨by simp [hp, List.countP, List.countP.go, Line.isInfo], ?_, ?_⟩
        · simp [hp, List.countP, List.countP.go, Line.isBestmove]
        · intro _
          exact ⟨r.depth, true, Int.tdiv (p + 1) 2, m, by simp [hp, hpv], by simp [hpv]⟩
      · refine ⟨by simp [hp, List.countP, List.countP.go, Line.isInfo], ?_, ?_⟩
        · simp [hp, List.countP, List.countP.go, Line.isBestmove]
        · intro _
          exact ⟨r.depth, true, Int.tdiv (p - 1) 2, m, by simp [hp, hpv], by simp [hpv]⟩

/-- Witness for `uci_go_output_lines` at a concrete report with a
non-empty pv. -/
theorem uci_go_output_lines_witness :
    (Uci.goOutput ⟨["e2e4"], 1, 20, none⟩).countP Line.isInfo = 1 ∧
    (Uci.goOutput ⟨["e2e4"], 1, 20, none⟩).countP Line.isBestmove =
      (if (["e2e4"] : List String) = [] then 0 else 1) ∧
    ((["e2e4"] : List String) ≠ [] →
      ∃ d b v m, Uci.goOutput ⟨["e2e4"], 1, 20, none⟩ =
          [Line.info d b v ["e2e4"], Line.bestmove m] ∧
        (["e2e4"] : List String).head? = some m) :=
  uci_go_output_lines ⟨["e2e4"], 1, 20, none⟩

/-! ## Chess domain types for FEN (`src/lib/chess/board.rs` and the
chess module) -/

/-- Modelled from the spec: piece colors (the chess module is not among
the provided sources). -/
inductive Color where
  | white
  | black
deriving DecidableEq, Repr

/-- Modelled from the spec: the six roles, in the iteration order used
by `Role::iter()` and by the `roles` array indexing. -/
inductive Role where
  | pawn
  | knight
  | bishop
  | rook
  | queen
  | king
deriving DecidableEq, Repr

/-- A piece: pair of role and color. -/
structure Piece where
  role : Role
  color : Color
deriving DecidableEq, Repr

/-- Modelled from the spec: the standard lowercase FEN letter of a
role. -/
def Role.lowChar : Role → Char
  | .pawn => 'p'
  | .knight => 'n'
  | .bishop => 'b'
  | .rook => 'r'
  | .queen => 'q'
  | .king => 'k'

/-- Modelled from the spec: the standard uppercase FEN letter of a
role. -/
def Role.upChar : Role → Char
  | .pawn => 'P'
  | .knight => 'N'
  | .bishop => 'B'
  | .rook => 'R'
  | .queen => 'Q'
  | .king => 'K'

/-- Modelled from the spec: `Display for Piece` — uppercase for White,
lowercase for Black, as in standard FEN. -/
def Piece.char (p : Piece) : Char :=
  match p.color with
  | .white => p.role.upChar
  | .black => p.role.lowChar

/-- Modelled from the spec: `Piece::from_str` over the twelve FEN piece
letters. -/
def Piece.ofChar (c : Char) : Option Piece :=
  if c = 'P' then some ⟨.pawn, .white⟩
  else if c = 'N' then some ⟨.knight, .white⟩
  else if c = 'B' then some ⟨.bishop, .white⟩
  else if c = 'R' then some ⟨.rook, .white⟩
  else if c = 'Q' then some ⟨.queen, .white⟩
  else if c = 'K' then some ⟨.king, .white⟩
  else if c = 'p' then some ⟨.pawn, .black⟩
  else if c = 'n' then some ⟨.knight, .black⟩
  else if c = 'b' then some ⟨.bishop, .black⟩
  else if c = 'r' then some ⟨.rook, .black⟩
  else if c = 'q' then some ⟨.queen, .black⟩
  else if c = 'k' then some ⟨.king, .black⟩
  else none

/-- A square, `A1 = 0` through `H8 = 63` in little-endian rank-file
order (spec §3). -/
abbrev Square := Fin 64

/-- The file of a square, `[0, 8)`. -/
def Square.file (sq : Square) : Nat := sq.val % 8

/-- The rank of a square, `[0, 8)`. -/
def Square.rank (sq : Square) : Nat := sq.val / 8

/-- Modelled from the spec: `Square::flip` mirrors vertically. -/
def Square.flip (sq : Square) : Square :=
  ⟨(7 - sq.val / 8) * 8 + sq.val % 8, by omega⟩

/-- Modelled from the spec: `Display for Square` — file letter then
rank digit (e.g. `e3`). -/
def Square.fenChars (sq : Square) : List Char :=
  [Char.ofNat (97 + Square.file sq), Char.ofNat (49 + Square.rank sq)]

/-- Modelled from the spec: `Square::from_str` on two-character
algebraic coordinates. -/
def Square.parse (l : List Char) : Option Square :=
  match l with
  | [f, r] =>
    if h : 97 ≤ f.toNat ∧ f.toNat ≤ 104 ∧ 49 ≤ r.toNat ∧ r.toNat ≤ 56 then
      some ⟨(r.toNat - 49) * 8 + (f.toNat - 97), by omega⟩
    else none
  | _ => none

/-- Castling rights: one flag per corner. -/
structure Castles where
  wk : Bool
  wq : Bool
  bk : Bool
  bq : Bool
deriving DecidableEq, Repr

/-- `Castles::none()`. -/
def Castles.none : Castles := ⟨false, false, false, false⟩

/-- `Castles::all()`. -/
def Castles.all : Castles := ⟨true, true, true, true⟩

/-- Modelled from the spec: `Display for Castles` — the canonical
subset of `KQkq` in that order. -/
def Castles.fenChars (c : Castles) : List Char :=
  (if c.wk then ['K'] else []) ++ (if c.wq then ['Q'] else []) ++
    (if c.bk then ['k'] else []) ++ (if c.bq then ['q'] else [])

/-- Consumes one optional leading occurrence of `c`. -/
def stripChar (c : Char) : List Char → Bool × List Char
  | [] => (false, [])
  | x :: xs => if x = c then (true, xs) else (false, x :: xs)

/-- Modelled from the spec: `Castles::from_str` on the canonical
non-empty `KQkq` subsets. -/
def Castles.parse (l : List Char) : Option Castles :=
  if l.isEmpty then Option.none
  else
    let (k1, l1) := stripChar 'K' l
    let (q1, l2) := stripChar 'Q' l1
    let (k2, l3) := stripChar 'k' l2
    let (q2, l4) := stripChar 'q' l3
    if l4.isEmpty then some ⟨k1, q1, k2, q2⟩ else Option.none

/-- The decimal digit character for `d < 10`. -/
def digitChar (d : Nat) : Char := Char.ofNat (48 + d)

/-- Decimal rendering of a natural number, as produced by Rust's `{}`
formatting. -/
def natChars (n : Nat) : List Char :=
  if _h : n < 10 then [digitChar n]
  else natChars (n / 10) ++ [digitChar (n % 10)]
decreasing_by exact Nat.div_lt_self (by omega) (by omega)

/-- Whether a character is a decimal digit. -/
def isDigitChar (c : Char) : Bool := 48 ≤ c.toNat && c.toNat ≤ 57

/-- The value of a digit string. -/
def digitsVal (l : List Char) : Nat := l.foldl (fun a c => a * 10 + (c.toNat - 48)) 0

/-- Modelled from the spec: Rust's `uN::from_str` on its canonical
output — a non-empty string of digits whose value fits the type (the
`bound`); anything else is an error. -/
def parseNatLt (bound : Nat) (l : List Char) : Option Nat :=
  if l ≠ [] ∧ l.all isDigitChar then
    if digitsVal l < bound then some (digitsVal l) else Option.none
  else Option.none

/-- Rust's `char::is_ascii_whitespace`: space (32), tab (9), newline
(10), form feed (12), carriage return (13). -/
def isWs (c : Char) : Bool :=
  c.toNat = 32 || c.toNat = 9 || c.toNat = 10 || c.toNat = 12 || c.toNat = 13

/-- Accumulator-based splitting on ASCII whitespace
(`str::split_ascii_whitespace`): runs of whitespace separate tokens and
produce no empties. -/
def splitWsAux : List Char → List Char → List (List Char)
  | [], acc => if acc.isEmpty then [] else [acc.reverse]
  | c :: cs, acc =>
    if isWs c then
      if acc.isEmpty then splitWsAux cs [] else acc.reverse :: splitWsAux cs []
    else splitWsAux cs (c :: acc)

/-- `str::split_ascii_whitespace` on a character list. -/
def splitWs (l : List Char) : List (List Char) := splitWsAux l []

/-- `str::split(sep)`: separator-delimited segments, keeping empties
(`n` separators yield `n + 1` segments). -/
def splitOnChar (sep : Char) : List Char → List (List Char)
  | [] => [[]]
  | c :: cs =>
    let r := splitOnChar sep cs
    if c = sep then [] :: r
    else
      match r with
      | [] => [[c]]
      | h :: t => (c :: h) :: t

/-- The chess board (struct `Board` in `src/lib/chess/board.rs`): the
`roles: [Bitboard; 6]` and `colors: [Bitboard; 2]` arrays are embedded
as one named field per bitboard (a `Nat` holding a `u64`), in array
order, plus the turn, castling rights, en passant square, halfmove clock
(`u8`) and fullmove counter (`u32`). -/
structure Board where
  pawns : Nat
  knights : Nat
  bishops : Nat
  rooks : Nat
  queens : Nat
  kings : Nat
  white : Nat
  black : Nat
  turn : Color
  castles : Castles
  enPassant : Option Square
  halfmoves : Nat
  fullmoves : Nat
deriving DecidableEq, Repr

/-- `Board::by_role`. -/
def Board.byRole (b : Board) : Role → Nat
  | .pawn => b.pawns
  | .knight => b.knights
  | .bishop => b.bishops
  | .rook => b.rooks
  | .queen => b.queens
  | .king => b.kings

/-- `Board::by_color`. -/
def Board.byColor (b : Board) : Color → Nat
  | .white => b.white
  | .black => b.black

/-- `Board::role_on`: the first role (in `Role::iter()` order) whose
bitboard contains the square. -/
def Board.roleOn (b : Board) (sq : Square) : Option Role :=
  if b.pawns.testBit sq.val then some .pawn
  else if b.knights.testBit sq.val then some .knight
  else if b.bishops.testBit sq.val then some .bishop
  else if b.rooks.testBit sq.val then some .rook
  else if b.queens.testBit sq.val then some .queen
  else if b.kings.testBit sq.val then some .king
  else Option.none

/-- `Board::color_on`. -/
def Board.colorOn (b : Board) (sq : Square) : Option Color :=
  if b.white.testBit sq.val then some .white
  else if b.black.testBit sq.val then some .black
  else Option.none

/-- `Board::piece_on`: `Option::zip(role_on, color_on)`. -/
def Board.pieceOn (b : Board) (sq : Square) : Option Piece :=
  match b.roleOn sq, b.colorOn sq with
  | some r, some c => some ⟨r, c⟩
  | _, _ => Option.none

/-! ### FEN printing (`impl Display for Board`) -/

/-- The separator character placed in `buffer[0]` when the displayed
square reaches file H: a space after the last displayed rank (rank
`First`), a slash otherwise. -/
def sepOf (sq : Square) : Option Char :=
  if Square.file sq = 7 then some (if Square.rank sq = 0 then ' ' else '/') else Option.none

/-- One iteration of the `Display for Board` loop over displayed
squares: state is the pending skip count and the output so far.  An
empty square bumps the skip; a piece (or a separator) flushes the
pending skip as a decimal, then the piece character, then the
separator. -/
def fmtStep (b : Board) (st : Nat × List Char) (sq : Square) : Nat × List Char :=
  match b.pieceOn sq with
  | Option.none =>
    match sepOf sq with
    | some c => (0, st.2 ++ natChars (st.1 + 1) ++ [c])
    | Option.none => (st.1 + 1, st.2)
  | some p =>
    let out := if st.1 > 0 then st.2 ++ natChars st.1 else st.2
    let out := out ++ [p.char]
    match sepOf sq with
    | some c => (0, out ++ [c])
    | Option.none => (0, out)

/-- `Square::iter().map(|sq| sq.flip())`: displayed rank 8 down to rank
1, files A through H within each rank. -/
def printedOrder : List Square := (List.finRange 64).map Square.flip

/-- The placement part of the printed FEN, including the trailing
space emitted with the last displayed square. -/
def Board.placementChars (b : Board) : List Char :=
  (printedOrder.foldl (fmtStep b) (0, [])).2

/-- `impl Display for Board`: placement, side to move, castling rights
(`-` when none), en passant square (`-` when none), halfmove clock and
fullmove counter. -/
def Board.fenChars (b : Board) : List Char :=
  b.placementChars
    ++ (match b.turn with | .white => ['w', ' '] | .black => ['b', ' '])
    ++ (if b.castles ≠ Castles.none then b.castles.fenChars ++ [' '] else ['-', ' '])
    ++ (match b.enPassant with
        | some ep => Square.fenChars ep ++ [' ']
        | Option.none => ['-', ' '])
    ++ natChars b.halfmoves ++ [' '] ++ natChars b.fullmoves

/-! ### FEN parsing (`impl FromStr for Board`) -/

/-- `ParseFenError` from `src/lib/chess/board.rs`. -/
inductive ParseFenError where
  | invalidPlacement
  | invalidSideToMove
  | invalidCastlingRights
  | invalidEnPassantSquare
  | invalidHalfmoveClock
  | invalidFullmoveNumber
  | invalidSyntax
deriving DecidableEq, Repr

/-- The mutable `roles`/`colors` arrays accumulated by the placement
loop of `FromStr for Board`. -/
structure BBoards where
  pawns : Nat
  knights : Nat
  bishops : Nat
  rooks : Nat
  queens : Nat
  kings : Nat
  white : Nat
  black : Nat
deriving DecidableEq, Repr

/-- The all-zero accumulators (`Default::default()`). -/
def BBoards.zero : BBoards := ⟨0, 0, 0, 0, 0, 0, 0, 0⟩

/-- `colors[p.color() as usize] ^= sq.bitboard();`
`roles[p.role() as usize] ^= sq.bitboard();` -/
def BBoards.toggle (a : BBoards) (p : Piece) (sq : Nat) : BBoards :=
  let a2 :=
    match p.color with
    | .white => { a with white := a.white ^^^ 2 ^ sq }
    | .black => { a with black := a.black ^^^ 2 ^ sq }
  match p.role with
  | .pawn => { a2 with pawns := a2.pawns ^^^ 2 ^ sq }
  | .knight => { a2 with knights := a2.knights ^^^ 2 ^ sq }
  | .bishop => { a2 with bishops := a2.bishops ^^^ 2 ^ sq }
  | .rook => { a2 with rooks := a2.rooks ^^^ 2 ^ sq }
  | .queen => { a2 with queens := a2.queens ^^^ 2 ^ sq }
  | .king => { a2 with kings := a2.kings ^^^ 2 ^ sq }

/-- The inner character loop of the placement segment for one rank:
rejects once the file or rank counter is out of range, a digit advances
the file, a piece letter toggles `(rank, file)` and advances the file,
anything else is an error. -/
def parseRank (rank : Nat) (a : BBoards) (file : Nat) : List Char → Option BBoards
  | [] => some a
  | c :: cs =>
    if file ≥ 8 ∨ rank ≥ 8 then Option.none
    else if isDigitChar c then parseRank rank a (file + (c.toNat - 48)) cs
    else
      match Piece.ofChar c with
      | some p => parseRank rank (a.toggle p (rank * 8 + file)) (file + 1) cs
      | Option.none => Option.none

/-- The outer loop over `board.split('/').rev().enumerate()`. -/
def parseRanks (rank : Nat) (a : BBoards) : List (List Char) → Option BBoards
  | [] => some a
  | seg :: rest =>
    match parseRank rank a 0 seg with
    | some a2 => parseRanks (rank + 1) a2 rest
    | Option.none => Option.none

/-- The placement field of `FromStr for Board`. -/
def parsePlacement (l : List Char) : Option BBoards :=
  parseRanks 0 BBoards.zero (splitOnChar '/' l).reverse

/-- `impl FromStr for Board`: the six whitespace-separated fields in
order, with the error variant of each failure mirrored from the source —
including that a missing or unparsable *fullmove* field returns
`InvalidHalfmoveClock` (the source's sixth-field `else` arm reuses that
variant instead of `InvalidFullmoveNumber`). -/
def Board.fromFen (s : List Char) : Except ParseFenError Board :=
  match splitWs s with
  | [] => .error .invalidPlacement
  | boardTok :: rest1 =>
    match parsePlacement boardTok with
    | Option.none => .error .invalidPlacement
    | some bb =>
      match rest1 with
      | [] => .error .invalidSideToMove
      | turnTok :: rest2 =>
        let turnOpt : Option Color :=
          if turnTok = ['w'] then some .white
          else if turnTok = ['b'] then some .black
          else Option.none
        match turnOpt with
        | Option.none => .error .invalidSideToMove
        | some turn =>
          match rest2 with
          | [] => .error .invalidCastlingRights
          | castlesTok :: rest3 =>
            let castlesOpt : Option Castles :=
              if castlesTok = ['-'] then some Castles.none else Castles.parse castlesTok
            match castlesOpt with
            | Option.none => .error .invalidCastlingRights
            | some castles =>
              match rest3 with
              | [] => .error .invalidEnPassantSquare
              | epTok :: rest4 =>
                let epOpt : Option (Option Square) :=
                  if epTok = ['-'] then some Option.none
                  else (Square.parse epTok).map some
                match epOpt with
                | Option.none => .error .invalidEnPassantSquare
                | some ep =>
                  match rest4 with
                  | [] => .error .invalidHalfmoveClock
                  | halfTok :: rest5 =>
                    match parseNatLt 256 halfTok with
                    | Option.none => .error .invalidHalfmoveClock
                    | some halfmoves =>
                      match rest5 with
                      | [] => .error .invalidHalfmoveClock
                      | fullTok :: rest6 =>
                        match parseNatLt (2 ^ 32) fullTok with
                        | Option.none => .error .invalidHalfmoveClock
                        | some fullmoves =>
                          if rest6 ≠ [] then .error .invalidSyntax
                          else .ok ⟨bb.pawns, bb.knights, bb.bishops, bb.rooks, bb.queens,
                            bb.kings, bb.white, bb.black, turn, castles, ep,
                            halfmoves, fullmoves⟩

/-- Claim C9: On a FEN string whose first five fields parse but whose
sixth (fullmove) field does not, `Board::from_str` fails with
`InvalidHalfmoveClock` — not `InvalidFullmoveNumber` as the spec's error
contract requires: the source's fullmove arm returns the halfmove-clock
variant. -/
theorem fen_fullmove_error_variant :
    Board.fromFen ("8/8/8/8/8/8/8/8 w - - 0 x".toList) =
      .error ParseFenError.invalidHalfmoveClock ∧
    ParseFenError.invalidHalfmoveClock ≠ ParseFenError.invalidFullmoveNumber :=
  ⟨rfl, by decide⟩

/-! ### Decomposition of the printed placement into per-rank strings -/

/-- The square at rank `r`, file `f`. -/
def sqAt (r f : Fin 8) : Square := ⟨r.val * 8 + f.val, by omega⟩

/-- The displayed squares of one rank, files A through H. -/
def squaresOfRank (r : Fin 8) : List Square := (List.finRange 8).map (sqAt r)

/-- The cell contents of one displayed rank. -/
def cellsOfRank (b : Board) (r : Fin 8) : List (Option Piece) :=
  (squaresOfRank r).map b.pieceOn

/-- The decimal flush of a pending skip count, when positive. -/
def flushChars (k : Nat) : List Char := if 0 < k then natChars k else []

/-- The characters emitted for a cell list before the separator,
threading the pending skip count. -/
def rankBody : Nat → List (Option Piece) → List Char
  | _, [] => []
  | skip, Option.none :: rest => rankBody (skip + 1) rest
  | skip, some p :: rest => flushChars skip ++ p.char :: rankBody 0 rest

/-- The skip count left pending after a cell list. -/
def pendingSkip : Nat → List (Option Piece) → Nat
  | skip, [] => skip
  | skip, Option.none :: rest => pendingSkip (skip + 1) rest
  | _, some _ :: rest => pendingSkip 0 rest

/-- The characters emitted for one full rank including its trailing
separator. -/
def rankChars (skip : Nat) (cl : List (Option Piece)) (sep : Char) : List Char :=
  rankBody skip cl ++ flushChars (pendingSkip skip cl) ++ [sep]

lemma rankBody_append (l1 l2 : List (Option Piece)) : ∀ s,
    rankBody s (l1 ++ l2) = rankBody s l1 ++ rankBody (pendingSkip s l1) l2 := by
  induction l1 with
  | nil => simp [rankBody, pendingSkip]
  | cons c rest ih =>
    intro s
    cases c with
    | none => simpa [rankBody, pendingSkip] using ih (s + 1)
    | some p => simp [rankBody, pendingSkip, ih 0]

lemma pendingSkip_append (l1 l2 : List (Option Piece)) : ∀ s,
    pendingSkip s (l1 ++ l2) = pendingSkip (pendingSkip s l1) l2 := by
  induction l1 with
  | nil => simp [pendingSkip]
  | cons c rest ih =>
    intro s
    cases c with
    | none => simpa [pendingSkip] using ih (s + 1)
    | some p => simp [pendingSkip, ih 0]

lemma squaresOfRank_eq (r : Fin 8) :
    squaresOfRank r =
      [sqAt r 0, sqAt r 1, sqAt r 2, sqAt r 3, sqAt r 4, sqAt r 5, sqAt r 6] ++ [sqAt r 7] :=
  rfl

lemma sepOf_sqAt_lt (r f : Fin 8) (h : f.val < 7) : sepOf (sqAt r f) = Option.none := by
  have hf : (r.val * 8 + f.val) % 8 = f.val := by omega
  simp only [sepOf, Square.file, sqAt, hf]
  rw [if_neg (by omega)]

lemma sepOf_sqAt_last (r : Fin 8) :
    sepOf (sqAt r 7) = some (if r.val = 0 then ' ' else '/') := by
  have hf : (r.val * 8 + (7 : Fin 8).val) % 8 = 7 := by omega
  have hr : (r.val * 8 + (7 : Fin 8).val) / 8 = r.val := by omega
  simp only [sepOf, Square.file, Square.rank, sqAt, hf, hr]
  simp

lemma foldl_fmtStep_nosep (b : Board) (sqs : List Square)
    (h : ∀ sq ∈ sqs, sepOf sq = Option.none) : ∀ (skip : Nat) (out : List Char),
    sqs.foldl (fmtStep b) (skip, out) =
      (pendingSkip skip (sqs.map b.pieceOn), out ++ rankBody skip (sqs.map b.pieceOn)) := by
  induction sqs with
  | nil => intro skip out; simp [pendingSkip, rankBody]
  | cons sq rest ih =>
    intro skip out
    have hsep : sepOf sq = Option.none := h sq (by simp)
    have hrest : ∀ q ∈ rest, sepOf q = Option.none := fun q hq => h q (by simp [hq])
    cases hc : b.pieceOn sq with
    | none =>
      simp only [List.foldl_cons, List.map_cons, fmtStep, hc, hsep]
      rw [ih hrest]
      simp [pendingSkip, rankBody]
    | some p =>
      simp only [List.foldl_cons, List.map_cons, fmtStep, hc, hsep]
      rw [ih hrest]
      simp only [pendingSkip, rankBody, flushChars]
      by_cases hs : 0 < skip <;> simp [hs]

lemma fmtStep_sep (b : Board) (sq : Square) (c : Char) (h : sepOf sq = some c)
    (skip : Nat) (out : List Char) :
    fmtStep b (skip, out) sq =
      (0, out ++ rankChars skip [b.pieceOn sq] c) := by
  cases hc : b.pieceOn sq with
  | none =>
    simp only [fmtStep, hc, h, rankChars, rankBody, pendingSkip, flushChars]
    simp
  | some p =>
    simp only [fmtStep, hc, h, rankChars, rankBody, pendingSkip, flushChars]
    by_cases hs : 0 < skip <;> simp [hs]

lemma foldl_fmtStep_rank (b : Board) (r : Fin 8) (skip : Nat) (out : List Char) :
    (squaresOfRank r).foldl (fmtStep b) (skip, out) =
      (0, out ++ rankChars skip (cellsOfRank b r) (if r.val = 0 then ' ' else '/')) := by
  rw [squaresOfRank_eq, List.foldl_append]
  rw [foldl_fmtStep_nosep b
    [sqAt r 0, sqAt r 1, sqAt r 2, sqAt r 3, sqAt r 4, sqAt r 5, sqAt r 6] (by
    intro sq hsq
    simp only [List.mem_cons, List.not_mem_nil, or_false] at hsq
    rcases hsq with rfl | rfl | rfl | rfl | rfl | rfl | rfl <;>
      exact sepOf_sqAt_lt r _ (by decide))]
  simp only [List.foldl_cons, List.foldl_nil]
  rw [fmtStep_sep b _ _ (sepOf_sqAt_last r)]
  have hcl : cellsOfRank b r =
      [b.pieceOn (sqAt r 0), b.pieceOn (sqAt r 1), b.pieceOn (sqAt r 2), b.pieceOn (sqAt r 3),
        b.pieceOn (sqAt r 4), b.pieceOn (sqAt r 5), b.pieceOn (sqAt r 6)] ++
        [b.pieceOn (sqAt r 7)] := rfl
  rw [hcl, rankChars, rankChars, rankBody_append, pendingSkip_append]
  simp [rankChars, rankBody, pendingSkip]

/-- The order of displayed squares is rank 8 down to rank 1. -/
lemma printedOrder_decomp :
    printedOrder =
      squaresOfRank 7 ++ (squaresOfRank 6 ++ (squaresOfRank 5 ++ (squaresOfRank 4 ++
        (squaresOfRank 3 ++ (squaresOfRank 2 ++ (squaresOfRank 1 ++ squaresOfRank 0)))))) := by
  decide

/-- The printed placement decomposes into eight rank strings. -/
lemma placementChars_decomp (b : Board) :
    b.placementChars =
      rankChars 0 (cellsOfRank b 7) '/' ++ rankChars 0 (cellsOfRank b 6) '/' ++
      rankChars 0 (cellsOfRank b 5) '/' ++ rankChars 0 (cellsOfRank b 4) '/' ++
      rankChars 0 (cellsOfRank b 3) '/' ++ rankChars 0 (cellsOfRank b 2) '/' ++
      rankChars 0 (cellsOfRank b 1) '/' ++ rankChars 0 (cellsOfRank b 0) ' ' := by
  unfold Board.placementChars
  rw [printedOrder_decomp]
  rw [List.foldl_append, foldl_fmtStep_rank]
  rw [List.foldl_append, foldl_fmtStep_rank]
  rw [List.foldl_append, foldl_fmtStep_rank]
  rw [List.foldl_append, foldl_fmtStep_rank]
  rw [List.foldl_append, foldl_fmtStep_rank]
  rw [List.foldl_append, foldl_fmtStep_rank]
  rw [List.foldl_append, foldl_fmtStep_rank]
  rw [foldl_fmtStep_rank]
  rfl

/-! ### Digit, piece-letter and token lemmas -/

lemma natChars_lt (n : Nat) (h : n < 10) : natChars n = [digitChar n] := by
  unfold natChars
  rw [dif_pos h]

lemma natChars_ge (n : Nat) (h : 10 ≤ n) :
    natChars n = natChars (n / 10) ++ [digitChar (n % 10)] := by
  conv_lhs => rw [natChars]
  rw [dif_neg (by omega)]

lemma toNat_digitChar (d : Nat) (h : d < 10) : (digitChar d).toNat = 48 + d := by
  interval_cases d <;> decide

lemma isDigitChar_digitChar (d : Nat) (h : d < 10) : isDigitChar (digitChar d) = true := by
  interval_cases d <;> decide

lemma natChars_ne_nil (n : Nat) : natChars n ≠ [] := by
  by_cases h : n < 10
  · rw [natChars_lt n h]; simp
  · rw [natChars_ge n (by omega)]; simp

lemma natChars_all_digits (n : Nat) : ∀ c ∈ natChars n, isDigitChar c = true := by
  induction n using Nat.strong_induction_on with
  | _ n ih =>
    by_cases h : n < 10
    · rw [natChars_lt n h]
      intro c hc
      simp only [List.mem_singleton] at hc
      subst hc
      exact isDigitChar_digitChar n h
    · rw [natChars_ge n (by omega)]
      intro c hc
      rcases List.mem_append.mp hc with h1 | h2
      · exact ih (n / 10) (Nat.div_lt_self (by omega) (by omega)) c h1
      · simp only [List.mem_singleton] at h2
        subst h2
        exact isDigitChar_digitChar _ (Nat.mod_lt _ (by omega))

lemma digitsVal_append_digit (l : List Char) (c : Char) :
    digitsVal (l ++ [c]) = digitsVal l * 10 + (c.toNat - 48) := by
  simp [digitsVal, List.foldl_append]

lemma digitsVal_natChars (n : Nat) : digitsVal (natChars n) = n := by
  induction n using Nat.strong_induction_on with
  | _ n ih =>
    by_cases h : n < 10
    · rw [natChars_lt n h]
      simp [digitsVal, toNat_digitChar n h]
    · rw [natChars_ge n (by omega), digitsVal_append_digit,
        ih (n / 10) (Nat.div_lt_self (by omega) (by omega)),
        toNat_digitChar _ (Nat.mod_lt _ (by omega))]
      omega

lemma parseNatLt_natChars (bound n : Nat) (h : n < bound) :
    parseNatLt bound (natChars n) = some n := by
  unfold parseNatLt
  rw [if_pos ⟨natChars_ne_nil n, List.all_eq_true.mpr (natChars_all_digits n)⟩,
    digitsVal_natChars, if_pos h]

lemma isWs_of_digit (c : Char) (h : isDigitChar c = true) : isWs c = false := by
  simp only [isDigitChar, Bool.and_eq_true, decide_eq_true_eq] at h
  simp only [isWs, Bool.or_eq_false_iff, decide_eq_false_iff_not]
  omega

lemma ne_slash_of_digit (c : Char) (h : isDigitChar c = true) : c ≠ '/' := by
  intro he
  subst he
  exact absurd h (by decide)

lemma pieceChar_facts (p : Piece) :
    isWs (Piece.char p) = false ∧ Piece.char p ≠ '/' ∧ isDigitChar (Piece.char p) = false ∧
      Piece.ofChar (Piece.char p) = some p := by
  obtain ⟨r, c⟩ := p
  cases r <;> cases c <;> exact ⟨by decide, by decide, by decide, by decide⟩

lemma flushChars_digits (k : Nat) : ∀ c ∈ flushChars k, isDigitChar c = true := by
  unfold flushChars
  by_cases h : 0 < k <;> simp [h]
  exact fun c hc => natChars_all_digits k c hc

lemma rankBody_chars (cl : List (Option Piece)) : ∀ (s : Nat), ∀ c ∈ rankBody s cl,
    isDigitChar c = true ∨ ∃ p : Piece, c = Piece.char p := by
  induction cl with
  | nil => intro s c hc; simp [rankBody] at hc
  | cons cell rest ih =>
    intro s c hc
    cases cell with
    | none => exact ih (s + 1) c hc
    | some p =>
      simp only [rankBody, List.mem_append, List.mem_cons] at hc
      rcases hc with h1 | h2 | h3
      · exact Or.inl (flushChars_digits s c h1)
      · exact Or.inr ⟨p, h2⟩
      · exact ih 0 c h3

lemma rankChars_chars (s : Nat) (cl : List (Option Piece)) (sep : Char) :
    ∀ c ∈ rankChars s cl sep,
      isDigitChar c = true ∨ (∃ p : Piece, c = Piece.char p) ∨ c = sep := by
  intro c hc
  simp only [rankChars, List.mem_append, List.mem_singleton] at hc
  rcases hc with (h1 | h2) | h3
  · rcases rankBody_chars cl s c h1 with h | h
    · exact Or.inl h
    · exact Or.inr (Or.inl h)
  · exact Or.inl (flushChars_digits _ c h2)
  · exact Or.inr (Or.inr h3)

/-! ### Splitting lemmas -/

lemma splitWsAux_push (tok : List Char) (h : ∀ c ∈ tok, isWs c = false) :
    ∀ (l acc : List Char), splitWsAux (tok ++ l) acc = splitWsAux l (tok.reverse ++ acc) := by
  induction tok with
  | nil => intro l acc; simp
  | cons c rest ih =>
    intro l acc
    have hc : isWs c = false := h c (by simp)
    have hr : ∀ x ∈ rest, isWs x = false := fun x hx => h x (by simp [hx])
    simp only [List.cons_append, splitWsAux, hc, Bool.false_eq_true, if_false,
      List.append_eq]
    rw [ih hr]
    simp

lemma splitWsAux_space (rest acc : List Char) (hacc : acc ≠ []) :
    splitWsAux (' ' :: rest) acc = acc.reverse :: splitWsAux rest [] := by
  have : isWs ' ' = true := by decide
  simp only [splitWsAux, this, if_true]
  rw [if_neg (by simpa using hacc)]

lemma splitWsAux_final (acc : List Char) (hacc : acc ≠ []) :
    splitWsAux [] acc = [acc.reverse] := by
  simp only [splitWsAux]
  rw [if_neg (by simpa using hacc)]

lemma splitWs_token (tok rest : List Char) (hne : tok ≠ [])
    (h : ∀ c ∈ tok, isWs c = false) :
    splitWs (tok ++ ' ' :: rest) = tok :: splitWs rest := by
  unfold splitWs
  rw [splitWsAux_push tok h, splitWsAux_space rest _ (by simpa using hne)]
  simp

lemma splitWs_last (tok : List Char) (hne : tok ≠ []) (h : ∀ c ∈ tok, isWs c = false) :
    splitWs tok = [tok] := by
  unfold splitWs
  conv_lhs => rw [← List.append_nil tok]
  rw [splitWsAux_push tok h, splitWsAux_final _ (by simpa using hne)]
  simp

lemma splitOnChar_sepFree (sep : Char) (l : List Char) (h : ∀ c ∈ l, c ≠ sep) :
    splitOnChar sep l = [l] := by
  induction l with
  | nil => rfl
  | cons c rest ih =>
    have hc : c ≠ sep := h c (by simp)
    have hr := ih (fun x hx => h x (by simp [hx]))
    simp only [splitOnChar, hc, if_false, hr]

lemma splitOnChar_append (sep : Char) (l1 rest : List Char) (h : ∀ c ∈ l1, c ≠ sep) :
    splitOnChar sep (l1 ++ sep :: rest) = l1 :: splitOnChar sep rest := by
  induction l1 with
  | nil => simp [splitOnChar]
  | cons c tl ih =>
    have hc : c ≠ sep := h c (by simp)
    have hr := ih (fun x hx => h x (by simp [hx]))
    simp only [List.cons_append, splitOnChar, hc, if_false, List.append_eq, hr]

/-! ### Parsing a printed rank recovers its toggles -/

/-- The toggles a parsed rank applies: one per occupied cell, at the
cell's square. -/
def applyToggles (r : Nat) : BBoards → Nat → List (Option Piece) → BBoards
  | a, _, [] => a
  | a, f, Option.none :: rest => applyToggles r a (f + 1) rest
  | a, f, some p :: rest => applyToggles r (a.toggle p (r * 8 + f)) (f + 1) rest

lemma rankBody_nil_pendingSkip (cl : List (Option Piece)) : ∀ s,
    rankBody s cl = [] → pendingSkip s cl = s + cl.length := by
  induction cl with
  | nil => intro s _; simp [pendingSkip]
  | cons cell rest ih =>
    intro s hs
    cases cell with
    | none =>
      simp only [rankBody] at hs
      simp only [pendingSkip, List.length_cons, ih (s + 1) hs]
      omega
    | some p => simp [rankBody, flushChars] at hs

lemma parseRank_piece_cons (r f : Nat) (hr : r < 8) (hf : f < 8) (p : Piece)
    (tail : List Char) (a : BBoards) :
    parseRank r a f (p.char :: tail) = parseRank r (a.toggle p (r * 8 + f)) (f + 1) tail := by
  obtain ⟨-, -, hnd, hof⟩ := pieceChar_facts p
  simp only [parseRank]
  rw [if_neg (by omega), if_neg (by simp [hnd]), hof]

lemma parseRank_round (r : Nat) (hr : r < 8) : ∀ (cl : List (Option Piece)) (f s : Nat)
    (a : BBoards), f + cl.length = 8 → s ≤ f →
    parseRank r a (f - s) (rankBody s cl ++ flushChars (pendingSkip s cl)) =
      some (applyToggles r a f cl) := by
  intro cl
  induction cl with
  | nil =>
    intro f s a hlen hs
    simp only [List.length_nil, Nat.add_zero] at hlen
    subst hlen
    simp only [rankBody, pendingSkip, List.nil_append, applyToggles]
    by_cases h0 : 0 < s
    · have h10 : s < 10 := by omega
      simp only [flushChars, if_pos h0, natChars_lt s h10]
      simp only [parseRank]
      rw [if_neg (by omega), if_pos (isDigitChar_digitChar s h10)]
    · simp only [flushChars, if_neg h0]
      rfl
  | cons cell rest ih =>
    intro f s a hlen hs
    have hf : f < 8 := by simp at hlen; omega
    cases cell with
    | none =>
      simp only [rankBody, pendingSkip, applyToggles]
      have hfs : f - s = (f + 1) - (s + 1) := by omega
      rw [hfs]
      exact ih (f + 1) (s + 1) a (by simp at hlen ⊢; omega) (by omega)
    | some p =>
      obtain ⟨-, -, hnd, hof⟩ := pieceChar_facts p
      simp only [rankBody, pendingSkip, applyToggles, List.append_assoc, List.cons_append]
      by_cases h0 : 0 < s
      · have h10 : s < 10 := by omega
        simp only [flushChars, if_pos h0, natChars_lt s h10, List.cons_append,
          List.nil_append]
        simp only [parseRank]
        rw [if_neg (by omega), if_pos (isDigitChar_digitChar s h10), toNat_digitChar s h10]
        have hstep : f - s + (48 + s - 48) = f := by omega
        rw [hstep, if_neg (by omega : ¬(f ≥ 8 ∨ r ≥ 8)), if_neg (by simp [hnd]), hof]
        have hnext := ih (f + 1) 0 (a.toggle p (r * 8 + f))
          (by simp at hlen ⊢; omega) (by omega)
        simpa [flushChars] using hnext
      · have hs0 : s = 0 := by omega
        subst hs0
        simp only [flushChars, if_neg h0, List.nil_append, Nat.sub_zero]
        rw [parseRank_piece_cons r f hr hf p _ a]
        have hnext := ih (f + 1) 0 (a.toggle p (r * 8 + f))
          (by simp at hlen ⊢; omega) (by omega)
        simpa [flushChars] using hnext

/-! ### The toggled bitboards equal the printed bitboards -/

/-- The role bitboard of the accumulators, by array index. -/
def BBoards.roleBB (a : BBoards) : Role → Nat
  | .pawn => a.pawns
  | .knight => a.knights
  | .bishop => a.bishops
  | .rook => a.rooks
  | .queen => a.queens
  | .king => a.kings

/-- The color bitboard of the accumulators. -/
def BBoards.colorBB (a : BBoards) : Color → Nat
  | .white => a.white
  | .black => a.black

lemma toggle_roleBB (a : BBoards) (p : Piece) (sq : Nat) (ρ : Role) :
    (a.toggle p sq).roleBB ρ =
      if p.role = ρ then a.roleBB ρ ^^^ 2 ^ sq else a.roleBB ρ := by
  obtain ⟨pr, pc⟩ := p
  cases pr <;> cases pc <;> cases ρ <;> simp [BBoards.toggle, BBoards.roleBB]

lemma toggle_colorBB (a : BBoards) (p : Piece) (sq : Nat) (c : Color) :
    (a.toggle p sq).colorBB c =
      if p.color = c then a.colorBB c ^^^ 2 ^ sq else a.colorBB c := by
  obtain ⟨pr, pc⟩ := p
  cases pr <;> cases pc <;> cases c <;> simp [BBoards.toggle, BBoards.colorBB]

/-- The bitboard mask contributed by the cells of one rank, for the
cells matching a predicate. -/
def cellsMask (pr : Piece → Bool) : Nat → List (Option Piece) → Nat
  | _, [] => 0
  | base, Option.none :: rest => cellsMask pr (base + 1) rest
  | base, some p :: rest => (if pr p then 2 ^ base else 0) ^^^ cellsMask pr (base + 1) rest

lemma applyToggles_roleBB (r : Nat) (ρ : Role) : ∀ (cl : List (Option Piece)) (a : BBoards)
    (f : Nat), (applyToggles r a f cl).roleBB ρ =
      a.roleBB ρ ^^^ cellsMask (fun p => p.role == ρ) (r * 8 + f) cl := by
  intro cl
  induction cl with
  | nil => intro a f; simp [applyToggles, cellsMask]
  | cons cell rest ih =>
    intro a f
    have hb : r * 8 + (f + 1) = r * 8 + f + 1 := by omega
    cases cell with
    | none =>
      simp only [applyToggles, cellsMask]
      rw [ih a (f + 1), hb]
    | some p =>
      simp only [applyToggles, cellsMask]
      rw [ih _ (f + 1), toggle_roleBB, hb]
      by_cases hρ : p.role = ρ
      · simp [hρ, Nat.xor_assoc]
      · simp [hρ]

lemma applyToggles_colorBB (r : Nat) (c : Color) : ∀ (cl : List (Option Piece)) (a : BBoards)
    (f : Nat), (applyToggles r a f cl).colorBB c =
      a.colorBB c ^^^ cellsMask (fun p => p.color == c) (r * 8 + f) cl := by
  intro cl
  induction cl with
  | nil => intro a f; simp [applyToggles, cellsMask]
  | cons cell rest ih =>
    intro a f
    have hb : r * 8 + (f + 1) = r * 8 + f + 1 := by omega
    cases cell with
    | none =>
      simp only [applyToggles, cellsMask]
      rw [ih a (f + 1), hb]
    | some p =>
      simp only [applyToggles, cellsMask]
      rw [ih _ (f + 1), toggle_colorBB, hb]
      by_cases hc : p.color = c
      · simp [hc, Nat.xor_assoc]
      · simp [hc]

lemma cellsMask_testBit_out (pr : Piece → Bool) : ∀ (cl : List (Option Piece)) (base t : Nat),
    (t < base ∨ base + cl.length ≤ t) → (cellsMask pr base cl).testBit t = false := by
  intro cl
  induction cl with
  | nil => intro base t _; simp [cellsMask]
  | cons cell rest ih =>
    intro base t hrange
    have hne : base ≠ t := by simp at hrange; omega
    have hrec : t < base + 1 ∨ base + 1 + rest.length ≤ t := by simp at hrange ⊢; omega
    cases cell with
    | none => simpa [cellsMask] using ih (base + 1) t hrec
    | some p =>
      simp only [cellsMask, Nat.testBit_xor, ih (base + 1) t hrec, Bool.xor_false]
      by_cases hp : pr p
      · simp [hp, Nat.testBit_two_pow_of_ne hne]
      · simp [hp]

lemma cellsMask_testBit_in (pr : Piece → Bool) : ∀ (cl : List (Option Piece)) (base t : Nat),
    base ≤ t → t < base + cl.length →
    (cellsMask pr base cl).testBit t =
      (match cl.get? (t - base) with
       | some (some p) => pr p
       | _ => false) := by
  intro cl
  induction cl with
  | nil => intro base t h1 h2; simp at h2; omega
  | cons cell rest ih =>
    intro base t h1 h2
    by_cases ht : t = base
    · subst ht
      simp only [Nat.sub_self, List.get?]
      cases cell with
      | none =>
        simp only [cellsMask]
        exact cellsMask_testBit_out pr rest (t + 1) t (Or.inl (by omega))
      | some p =>
        have hout := cellsMask_testBit_out pr rest (t + 1) t (Or.inl (by omega))
        simp only [cellsMask, Nat.testBit_xor, hout, Bool.xor_false]
        by_cases hp : pr p
        · simp [hp, Nat.testBit_two_pow_self]
        · simp [hp]
    · have hgt : base + 1 ≤ t := by omega
      have hidx : t - base = (t - (base + 1)) + 1 := by omega
      rw [hidx]
      cases cell with
      | none =>
        simp only [cellsMask, List.get?]
        exact ih (base + 1) t hgt (by simp at h2 ⊢; omega)
      | some p =>
        simp only [cellsMask, Nat.testBit_xor, List.get?]
        rw [ih (base + 1) t hgt (by simp at h2 ⊢; omega)]
        by_cases hp : pr p
        · simp [hp, Nat.testBit_two_pow_of_ne (by omega : base ≠ t)]
        · simp [hp]

/-! ### Wellformedness and the per-square reading of the bitboards -/

/-- The data-model invariant of §3 of the spec, plus the integer-width
bounds of the fields: every square lies in at most one role bitboard and
at most one color bitboard, and in some role bitboard iff in some color
bitboard; bitboards are 64-bit, the halfmove clock is a `u8` and the
fullmove counter a `u32`.  Every legal position satisfies this. -/
def Board.WF (b : Board) : Prop :=
  b.pawns < 2 ^ 64 ∧ b.knights < 2 ^ 64 ∧ b.bishops < 2 ^ 64 ∧ b.rooks < 2 ^ 64 ∧
  b.queens < 2 ^ 64 ∧ b.kings < 2 ^ 64 ∧ b.white < 2 ^ 64 ∧ b.black < 2 ^ 64 ∧
  (∀ t : Nat, t < 64 →
    ([b.pawns.testBit t, b.knights.testBit t, b.bishops.testBit t, b.rooks.testBit t,
        b.queens.testBit t, b.kings.testBit t].count true ≤ 1 ∧
      [b.white.testBit t, b.black.testBit t].count true ≤ 1 ∧
      ((b.pawns.testBit t || b.knights.testBit t || b.bishops.testBit t ||
          b.rooks.testBit t || b.queens.testBit t || b.kings.testBit t) =
        (b.white.testBit t || b.black.testBit t)))) ∧
  b.halfmoves < 256 ∧ b.fullmoves < 2 ^ 32

instance (b : Board) : Decidable b.WF := by
  unfold Board.WF
  infer_instance

/-- Whether the piece on a square has the given role. -/
def hitRole (b : Board) (sq : Square) (ρ : Role) : Bool :=
  match b.pieceOn sq with
  | some p => p.role == ρ
  | Option.none => false

/-- Whether the piece on a square has the given color. -/
def hitColor (b : Board) (sq : Square) (c : Color) : Bool :=
  match b.pieceOn sq with
  | some p => p.color == c
  | Option.none => false

/-- `Board::role_on` as a function of the six bits of one square. -/
def firstRoleB (p k bi r q ki : Bool) : Option Role :=
  if p then some .pawn
  else if k then some .knight
  else if bi then some .bishop
  else if r then some .rook
  else if q then some .queen
  else if ki then some .king
  else Option.none

/-- `Board::color_on` as a function of the two bits of one square. -/
def firstColorB (w bl : Bool) : Option Color :=
  if w then some .white else if bl then some .black else Option.none

lemma boolSelect_role (ρ : Role) : ∀ (p k bi r q ki w bl : Bool),
    [p, k, bi, r, q, ki].count true ≤ 1 →
    ((p || k || bi || r || q || ki) = (w || bl)) →
    (match firstRoleB p k bi r q ki, firstColorB w bl with
     | some r2, some _ => r2 == ρ
     | _, _ => false) =
      (match ρ with
       | .pawn => p
       | .knight => k
       | .bishop => bi
       | .rook => r
       | .queen => q
       | .king => ki) := by
  cases ρ <;> decide

lemma boolSelect_color (c : Color) : ∀ (p k bi r q ki w bl : Bool),
    [w, bl].count true ≤ 1 →
    ((p || k || bi || r || q || ki) = (w || bl)) →
    (match firstRoleB p k bi r q ki, firstColorB w bl with
     | some _, some c2 => c2 == c
     | _, _ => false) =
      (match c with
       | .white => w
       | .black => bl) := by
  cases c <;> decide

lemma hitRole_eq (b : Board) (sq : Square) (ρ : Role) :
    hitRole b sq ρ =
      (match b.roleOn sq, b.colorOn sq with
       | some r2, some _ => r2 == ρ
       | _, _ => false) := by
  unfold hitRole Board.pieceOn
  cases b.roleOn sq <;> cases b.colorOn sq <;> rfl

lemma hitColor_eq (b : Board) (sq : Square) (c : Color) :
    hitColor b sq c =
      (match b.roleOn sq, b.colorOn sq with
       | some _, some c2 => c2 == c
       | _, _ => false) := by
  unfold hitColor Board.pieceOn
  cases b.roleOn sq <;> cases b.colorOn sq <;> rfl

lemma WF_role_bit (b : Board) (hw : b.WF) (t : Nat) (ht : t < 64) (ρ : Role) :
    (b.byRole ρ).testBit t = hitRole b ⟨t, ht⟩ ρ := by
  obtain ⟨-, -, -, -, -, -, -, -, hinv, -, -⟩ := hw
  obtain ⟨hcnt, -, hiff⟩ := hinv t ht
  rw [hitRole_eq]
  have hro : b.roleOn ⟨t, ht⟩ =
      firstRoleB (b.pawns.testBit t) (b.knights.testBit t) (b.bishops.testBit t)
        (b.rooks.testBit t) (b.queens.testBit t) (b.kings.testBit t) := rfl
  have hco : b.colorOn ⟨t, ht⟩ = firstColorB (b.white.testBit t) (b.black.testBit t) := rfl
  rw [hro, hco, boolSelect_role ρ _ _ _ _ _ _ _ _ hcnt hiff]
  cases ρ <;> rfl

lemma WF_color_bit (b : Board) (hw : b.WF) (t : Nat) (ht : t < 64) (c : Color) :
    (b.byColor c).testBit t = hitColor b ⟨t, ht⟩ c := by
  obtain ⟨-, -, -, -, -, -, -, -, hinv, -, -⟩ := hw
  obtain ⟨-, hccnt, hiff⟩ := hinv t ht
  rw [hitColor_eq]
  have hro : b.roleOn ⟨t, ht⟩ =
      firstRoleB (b.pawns.testBit t) (b.knights.testBit t) (b.bishops.testBit t)
        (b.rooks.testBit t) (b.queens.testBit t) (b.kings.testBit t) := rfl
  have hco : b.colorOn ⟨t, ht⟩ = firstColorB (b.white.testBit t) (b.black.testBit t) := rfl
  rw [hro, hco, boolSelect_color c _ _ _ _ _ _ _ _ hccnt hiff]
  cases c <;> rfl

/-- The accumulators produced by parsing all eight printed ranks,
bottom rank first (`split('/').rev()`). -/
def applyChain (b : Board) : BBoards :=
  applyToggles 7 (applyToggles 6 (applyToggles 5 (applyToggles 4 (applyToggles 3
    (applyToggles 2 (applyToggles 1 (applyToggles 0 BBoards.zero 0 (cellsOfRank b 0))
      0 (cellsOfRank b 1)) 0 (cellsOfRank b 2)) 0 (cellsOfRank b 3)) 0 (cellsOfRank b 4))
    0 (cellsOfRank b 5)) 0 (cellsOfRank b 6)) 0 (cellsOfRank b 7)

lemma zero_roleBB (ρ : Role) : BBoards.zero.roleBB ρ = 0 := by cases ρ <;> rfl

lemma zero_colorBB (c : Color) : BBoards.zero.colorBB c = 0 := by cases c <;> rfl

lemma cellsOfRank_length (b : Board) (r : Fin 8) : (cellsOfRank b r).length = 8 := rfl

lemma cellsOfRank_get (b : Board) (r : Fin 8) (i : Nat) (hi : i < 8) :
    (cellsOfRank b r).get? i = some (b.pieceOn (sqAt r ⟨i, hi⟩)) := by
  interval_cases i <;> rfl

lemma rankMask_bit (b : Board) (pr : Piece → Bool) (rN : Nat) (r : Fin 8) (hv : r.val = rN)
    (t : Nat) (ht : t < 64) :
    (cellsMask pr (rN * 8 + 0) (cellsOfRank b r)).testBit t =
      if t / 8 = rN then
        (match b.pieceOn ⟨t, ht⟩ with
         | some p => pr p
         | Option.none => false)
      else false := by
  have hr8 : rN < 8 := by omega
  by_cases hq : t / 8 = rN
  · rw [if_pos hq,
      cellsMask_testBit_in pr _ _ _ (by omega) (by rw [cellsOfRank_length]; omega)]
    have hvlt : t - (rN * 8 + 0) < 8 := by omega
    rw [cellsOfRank_get b r _ hvlt]
    have hsq : sqAt r ⟨t - (rN * 8 + 0), hvlt⟩ = ⟨t, ht⟩ := by
      apply Fin.ext
      simp [sqAt, hv]
      omega
    rw [hsq]
    cases b.pieceOn ⟨t, ht⟩ <;> rfl
  · rw [if_neg hq, cellsMask_testBit_out pr _ _ _ (by rw [cellsOfRank_length]; omega)]

lemma rankMask_bit_ge (b : Board) (pr : Piece → Bool) (rN : Nat) (r : Fin 8)
    (t : Nat) (hr : rN < 8) (ht : 64 ≤ t) :
    (cellsMask pr (rN * 8 + 0) (cellsOfRank b r)).testBit t = false :=
  cellsMask_testBit_out pr _ _ _ (by rw [cellsOfRank_length]; omega)

lemma applyChain_roleBB_bit (b : Board) (ρ : Role) (t : Nat) (ht : t < 64) :
    ((applyChain b).roleBB ρ).testBit t = hitRole b ⟨t, ht⟩ ρ := by
  unfold applyChain
  rw [applyToggles_roleBB, applyToggles_roleBB, applyToggles_roleBB, applyToggles_roleBB,
    applyToggles_roleBB, applyToggles_roleBB, applyToggles_roleBB, applyToggles_roleBB,
    zero_roleBB]
  simp only [Nat.testBit_xor, Nat.zero_testBit,
    rankMask_bit b _ 0 0 rfl t ht, rankMask_bit b _ 1 1 rfl t ht,
    rankMask_bit b _ 2 2 rfl t ht, rankMask_bit b _ 3 3 rfl t ht,
    rankMask_bit b _ 4 4 rfl t ht, rankMask_bit b _ 5 5 rfl t ht,
    rankMask_bit b _ 6 6 rfl t ht, rankMask_bit b _ 7 7 rfl t ht]
  rcases (by omega : t / 8 = 0 ∨ t / 8 = 1 ∨ t / 8 = 2 ∨ t / 8 = 3 ∨ t / 8 = 4 ∨
      t / 8 = 5 ∨ t / 8 = 6 ∨ t / 8 = 7) with h | h | h | h | h | h | h | h <;>
    simp [h, hitRole]

lemma applyChain_colorBB_bit (b : Board) (c : Color) (t : Nat) (ht : t < 64) :
    ((applyChain b).colorBB c).testBit t = hitColor b ⟨t, ht⟩ c := by
  unfold applyChain
  rw [applyToggles_colorBB, applyToggles_colorBB, applyToggles_colorBB, applyToggles_colorBB,
    applyToggles_colorBB, applyToggles_colorBB, applyToggles_colorBB, applyToggles_colorBB,
    zero_colorBB]
  simp only [Nat.testBit_xor, Nat.zero_testBit,
    rankMask_bit b _ 0 0 rfl t ht, rankMask_bit b _ 1 1 rfl t ht,
    rankMask_bit b _ 2 2 rfl t ht, rankMask_bit b _ 3 3 rfl t ht,
    rankMask_bit b _ 4 4 rfl t ht, rankMask_bit b _ 5 5 rfl t ht,
    rankMask_bit b _ 6 6 rfl t ht, rankMask_bit b _ 7 7 rfl t ht]
  rcases (by omega : t / 8 = 0 ∨ t / 8 = 1 ∨ t / 8 = 2 ∨ t / 8 = 3 ∨ t / 8 = 4 ∨
      t / 8 = 5 ∨ t / 8 = 6 ∨ t / 8 = 7) with h | h | h | h | h | h | h | h <;>
    simp [h, hitColor]

lemma applyChain_roleBB_bit_ge (b : Board) (ρ : Role) (t : Nat) (ht : 64 ≤ t) :
    ((applyChain b).roleBB ρ).testBit t = false := by
  unfold applyChain
  rw [applyToggles_roleBB, applyToggles_roleBB, applyToggles_roleBB, applyToggles_roleBB,
    applyToggles_roleBB, applyToggles_roleBB, applyToggles_roleBB, applyToggles_roleBB,
    zero_roleBB]
  simp only [Nat.testBit_xor, Nat.zero_testBit,
    rankMask_bit_ge b _ 0 0 t (by omega) ht, rankMask_bit_ge b _ 1 1 t (by omega) ht,
    rankMask_bit_ge b _ 2 2 t (by omega) ht, rankMask_bit_ge b _ 3 3 t (by omega) ht,
    rankMask_bit_ge b _ 4 4 t (by omega) ht, rankMask_bit_ge b _ 5 5 t (by omega) ht,
    rankMask_bit_ge b _ 6 6 t (by omega) ht, rankMask_bit_ge b _ 7 7 t (by omega) ht]
  rfl

lemma applyChain_colorBB_bit_ge (b : Board) (c : Color) (t : Nat) (ht : 64 ≤ t) :
    ((applyChain b).colorBB c).testBit t = false := by
  unfold applyChain
  rw [applyToggles_colorBB, applyToggles_colorBB, applyToggles_colorBB, applyToggles_colorBB,
    applyToggles_colorBB, applyToggles_colorBB, applyToggles_colorBB, applyToggles_colorBB,
    zero_colorBB]
  simp only [Nat.testBit_xor, Nat.zero_testBit,
    rankMask_bit_ge b _ 0 0 t (by omega) ht, rankMask_bit_ge b _ 1 1 t (by omega) ht,
    rankMask_bit_ge b _ 2 2 t (by omega) ht, rankMask_bit_ge b _ 3 3 t (by omega) ht,
    rankMask_bit_ge b _ 4 4 t (by omega) ht, rankMask_bit_ge b _ 5 5 t (by omega) ht,
    rankMask_bit_ge b _ 6 6 t (by omega) ht, rankMask_bit_ge b _ 7 7 t (by omega) ht]
  rfl

lemma testBit_ge_of_lt_two_pow (x t : Nat) (hx : x < 2 ^ 64) (ht : 64 ≤ t) :
    x.testBit t = false :=
  Nat.testBit_lt_two_pow (lt_of_lt_of_le hx (Nat.pow_le_pow_right (by omega) ht))

lemma applyChain_roleBB_eq (b : Board) (hw : b.WF) (ρ : Role) :
    (applyChain b).roleBB ρ = b.byRole ρ := by
  apply Nat.eq_of_testBit_eq
  intro t
  by_cases ht : t < 64
  · rw [applyChain_roleBB_bit b ρ t ht, WF_role_bit b hw t ht ρ]
  · rw [applyChain_roleBB_bit_ge b ρ t (by omega)]
    have hlt : b.byRole ρ < 2 ^ 64 := by
      obtain ⟨h1, h2, h3, h4, h5, h6, -, -, -, -, -⟩ := hw
      cases ρ <;> simpa [Board.byRole]
    rw [testBit_ge_of_lt_two_pow _ t hlt (by omega)]

lemma applyChain_colorBB_eq (b : Board) (hw : b.WF) (c : Color) :
    (applyChain b).colorBB c = b.byColor c := by
  apply Nat.eq_of_testBit_eq
  intro t
  by_cases ht : t < 64
  · rw [applyChain_colorBB_bit b c t ht, WF_color_bit b hw t ht c]
  · rw [applyChain_colorBB_bit_ge b c t (by omega)]
    have hlt : b.byColor c < 2 ^ 64 := by
      obtain ⟨-, -, -, -, -, -, h7, h8, -, -, -⟩ := hw
      cases c <;> simpa [Board.byColor]
    rw [testBit_ge_of_lt_two_pow _ t hlt (by omega)]

/-- Parsing the eight printed ranks reconstructs exactly the original
bitboards. -/
lemma applyChain_eq (b : Board) (hw : b.WF) :
    applyChain b = ⟨b.pawns, b.knights, b.bishops, b.rooks, b.queens, b.kings,
      b.white, b.black⟩ := by
  have hp := applyChain_roleBB_eq b hw .pawn
  have hn := applyChain_roleBB_eq b hw .knight
  have hb := applyChain_roleBB_eq b hw .bishop
  have hr := applyChain_roleBB_eq b hw .rook
  have hq := applyChain_roleBB_eq b hw .queen
  have hk := applyChain_roleBB_eq b hw .king
  have hwh := applyChain_colorBB_eq b hw .white
  have hbl := applyChain_colorBB_eq b hw .black
  simp only [BBoards.roleBB, BBoards.colorBB, Board.byRole,
    Board.byColor] at hp hn hb hr hq hk hwh hbl
  calc applyChain b
      = ⟨(applyChain b).pawns, (applyChain b).knights, (applyChain b).bishops,
          (applyChain b).rooks, (applyChain b).queens, (applyChain b).kings,
          (applyChain b).white, (applyChain b).black⟩ := rfl
    _ = ⟨b.pawns, b.knights, b.bishops, b.rooks, b.queens, b.kings, b.white, b.black⟩ := by
        rw [hp, hn, hb, hr, hq, hk, hwh, hbl]

/-! ### Token contents of the printed FEN -/

/-- The rank segment as it appears between separators. -/
def rankTok (b : Board) (r : Fin 8) : List Char :=
  rankBody 0 (cellsOfRank b r) ++ flushChars (pendingSkip 0 (cellsOfRank b r))

lemma rankChars_eq_tok (b : Board) (r : Fin 8) (sep : Char) :
    rankChars 0 (cellsOfRank b r) sep = rankTok b r ++ [sep] := by
  simp [rankChars, rankTok, List.append_assoc]

lemma rankTok_ne_nil (b : Board) (r : Fin 8) : rankTok b r ≠ [] := by
  unfold rankTok
  by_cases hrb : rankBody 0 (cellsOfRank b r) = []
  · rw [hrb]
    have hps := rankBody_nil_pendingSkip (cellsOfRank b r) 0 hrb
    rw [cellsOfRank_length] at hps
    simp only [List.nil_append, hps]
    simp only [flushChars, if_pos (by omega : 0 < 0 + 8)]
    exact natChars_ne_nil (0 + 8)
  · simp [hrb]

lemma rankTok_chars (b : Board) (r : Fin 8) : ∀ c ∈ rankTok b r,
    isDigitChar c = true ∨ ∃ p : Piece, c = Piece.char p := by
  intro c hc
  rcases List.mem_append.mp hc with h1 | h2
  · exact rankBody_chars _ 0 c h1
  · exact Or.inl (flushChars_digits _ c h2)

lemma rankTok_no_ws (b : Board) (r : Fin 8) : ∀ c ∈ rankTok b r, isWs c = false := by
  intro c hc
  rcases rankTok_chars b r c hc with h | ⟨p, rfl⟩
  · exact isWs_of_digit c h
  · exact (pieceChar_facts p).1

lemma rankTok_no_slash (b : Board) (r : Fin 8) : ∀ c ∈ rankTok b r, c ≠ '/' := by
  intro c hc
  rcases rankTok_chars b r c hc with h | ⟨p, rfl⟩
  · exact ne_slash_of_digit c h
  · exact (pieceChar_facts p).2.1

/-- The placement token: the eight rank segments joined by slashes. -/
def placeTok (b : Board) : List Char :=
  rankTok b 7 ++ '/' :: (rankTok b 6 ++ '/' :: (rankTok b 5 ++ '/' :: (rankTok b 4 ++ '/' ::
    (rankTok b 3 ++ '/' :: (rankTok b 2 ++ '/' :: (rankTok b 1 ++ '/' :: rankTok b 0))))))

lemma placementChars_eq_tok (b : Board) : b.placementChars = placeTok b ++ [' '] := by
  rw [placementChars_decomp]
  simp only [rankChars_eq_tok, placeTok, List.append_assoc, List.singleton_append,
    List.cons_append, List.nil_append]

lemma placeTok_ne_nil (b : Board) : placeTok b ≠ [] := by
  unfold placeTok
  intro h
  rcases List.append_eq_nil.mp h with ⟨-, h2⟩
  simp at h2

lemma placeTok_no_ws (b : Board) : ∀ c ∈ placeTok b, isWs c = false := by
  intro c hc
  simp only [placeTok, List.mem_append, List.mem_cons] at hc
  rcases hc with h | rfl | h | rfl | h | rfl | h | rfl | h | rfl | h | rfl | h | rfl | h
  all_goals first
    | exact rankTok_no_ws b _ c h
    | decide

lemma splitOn_placeTok (b : Board) :
    splitOnChar '/' (placeTok b) =
      [rankTok b 7, rankTok b 6, rankTok b 5, rankTok b 4, rankTok b 3, rankTok b 2,
        rankTok b 1, rankTok b 0] := by
  unfold placeTok
  rw [splitOnChar_append '/' _ _ (rankTok_no_slash b 7),
    splitOnChar_append '/' _ _ (rankTok_no_slash b 6),
    splitOnChar_append '/' _ _ (rankTok_no_slash b 5),
    splitOnChar_append '/' _ _ (rankTok_no_slash b 4),
    splitOnChar_append '/' _ _ (rankTok_no_slash b 3),
    splitOnChar_append '/' _ _ (rankTok_no_slash b 2),
    splitOnChar_append '/' _ _ (rankTok_no_slash b 1),
    splitOnChar_sepFree '/' _ (rankTok_no_slash b 0)]

lemma parseRank_rankTok (b : Board) (rN : Nat) (r : Fin 8) (hv : r.val = rN)
    (a : BBoards) :
    parseRank rN a 0 (rankTok b r) = some (applyToggles rN a 0 (cellsOfRank b r)) := by
  have h := parseRank_round rN (by omega) (cellsOfRank b r) 0 0 a
    (by rw [cellsOfRank_length]) (by omega)
  simpa [rankTok] using h

lemma parsePlacement_placeTok (b : Board) :
    parsePlacement (placeTok b) = some (applyChain b) := by
  unfold parsePlacement
  rw [splitOn_placeTok]
  simp only [List.reverse_cons, List.reverse_nil, List.nil_append, List.cons_append,
    List.append_assoc]
  simp only [parseRanks, parseRank_rankTok b 0 0 rfl, parseRank_rankTok b 1 1 rfl,
    parseRank_rankTok b 2 2 rfl, parseRank_rankTok b 3 3 rfl, parseRank_rankTok b 4 4 rfl,
    parseRank_rankTok b 5 5 rfl, parseRank_rankTok b 6 6 rfl, parseRank_rankTok b 7 7 rfl]
  rfl

lemma castles_roundtrip (c : Castles) (h : c ≠ Castles.none) :
    Castles.parse (Castles.fenChars c) = some c ∧ Castles.fenChars c ≠ ['-'] ∧
    Castles.fenChars c ≠ [] ∧ ∀ x ∈ Castles.fenChars c, isWs x = false := by
  obtain ⟨k1, q1, k2, q2⟩ := c
  cases k1 <;> cases q1 <;> cases k2 <;> cases q2 <;>
    first
      | exact absurd rfl h
      | exact ⟨by decide, by decide, by decide, by decide⟩

lemma square_roundtrip : ∀ sq : Square, Square.parse (Square.fenChars sq) = some sq ∧
    Square.fenChars sq ≠ ['-'] ∧ Square.fenChars sq ≠ [] ∧
    ∀ x ∈ Square.fenChars sq, isWs x = false := by
  decide

/-- The side-to-move token. -/
def turnTok (b : Board) : List Char :=
  match b.turn with
  | .white => ['w']
  | .black => ['b']

/-- The castling token. -/
def castlesTok (b : Board) : List Char :=
  if b.castles = Castles.none then ['-'] else b.castles.fenChars

/-- The en-passant token. -/
def epTok (b : Board) : List Char :=
  match b.enPassant with
  | some sq => Square.fenChars sq
  | Option.none => ['-']

lemma fenChars_tokens (b : Board) : b.fenChars =
    placeTok b ++ ' ' :: (turnTok b ++ ' ' :: (castlesTok b ++ ' ' :: (epTok b ++ ' ' ::
      (natChars b.halfmoves ++ ' ' :: natChars b.fullmoves)))) := by
  unfold Board.fenChars turnTok castlesTok epTok
  rw [placementChars_eq_tok]
  cases b.turn <;> cases hep : b.enPassant <;> by_cases hc : b.castles = Castles.none <;>
    simp [hc, List.append_assoc]

lemma turnTok_facts (b : Board) : turnTok b ≠ [] ∧ ∀ c ∈ turnTok b, isWs c = false := by
  unfold turnTok
  cases b.turn <;> exact ⟨by decide, by decide⟩

lemma castlesTok_facts (b : Board) : castlesTok b ≠ [] ∧ ∀ c ∈ castlesTok b, isWs c = false := by
  unfold castlesTok
  by_cases hc : b.castles = Castles.none
  · simp only [hc, if_pos rfl]
    exact ⟨by decide, by decide⟩
  · rw [if_neg hc]
    obtain ⟨-, -, h3, h4⟩ := castles_roundtrip b.castles hc
    exact ⟨h3, h4⟩

lemma epTok_facts (b : Board) : epTok b ≠ [] ∧ ∀ c ∈ epTok b, isWs c = false := by
  unfold epTok
  cases hep : b.enPassant with
  | none => exact ⟨by decide, by decide⟩
  | some sq =>
    obtain ⟨-, -, h3, h4⟩ := square_roundtrip sq
    exact ⟨h3, h4⟩

lemma natChars_no_ws (n : Nat) : ∀ c ∈ natChars n, isWs c = false :=
  fun c hc => isWs_of_digit c (natChars_all_digits n c hc)

lemma splitWs_fenChars (b : Board) : splitWs b.fenChars =
    [placeTok b, turnTok b, castlesTok b, epTok b, natChars b.halfmoves,
      natChars b.fullmoves] := by
  rw [fenChars_tokens,
    splitWs_token _ _ (placeTok_ne_nil b) (placeTok_no_ws b),
    splitWs_token _ _ (turnTok_facts b).1 (turnTok_facts b).2,
    splitWs_token _ _ (castlesTok_facts b).1 (castlesTok_facts b).2,
    splitWs_token _ _ (epTok_facts b).1 (epTok_facts b).2,
    splitWs_token _ _ (natChars_ne_nil b.halfmoves) (natChars_no_ws b.halfmoves),
    splitWs_last _ (natChars_ne_nil b.fullmoves) (natChars_no_ws b.fullmoves)]

/-- Claim C3: For every wellformed (in particular, every legal) board,
parsing the printed FEN yields the board back:
`Board::from_str(B.to_string()) == Ok(B)`. -/
theorem fen_roundtrip (b : Board) (hw : b.WF) : Board.fromFen b.fenChars = .ok b := by
  have hhalf : b.halfmoves < 256 := hw.2.2.2.2.2.2.2.2.2.1
  have hfull : b.fullmoves < 2 ^ 32 := hw.2.2.2.2.2.2.2.2.2.2
  unfold Board.fromFen
  rw [splitWs_fenChars b]
  simp only [parsePlacement_placeTok b]
  have hturn : (if turnTok b = ['w'] then some Color.white
      else if turnTok b = ['b'] then some Color.black else Option.none) = some b.turn := by
    unfold turnTok
    cases b.turn <;> decide
  have hcastles : (if castlesTok b = ['-'] then some Castles.none
      else Castles.parse (castlesTok b)) = some b.castles := by
    unfold castlesTok
    by_cases hc : b.castles = Castles.none
    · simp [hc]
    · rw [if_neg hc, if_neg (castles_roundtrip b.castles hc).2.1,
        (castles_roundtrip b.castles hc).1]
  have hep : (if epTok b = ['-'] then some Option.none
      else (Square.parse (epTok b)).map some) = some b.enPassant := by
    unfold epTok
    cases hepv : b.enPassant with
    | none => simp
    | some sq =>
      rw [if_neg (square_roundtrip sq).2.1, (square_roundtrip sq).1]
      rfl
  simp only [hturn, hcastles, hep, parseNatLt_natChars 256 b.halfmoves hhalf,
    parseNatLt_natChars (2 ^ 32) b.fullmoves hfull]
  rw [applyChain_eq b hw]
  rfl

/-- The start position, `impl Default for Board`. -/
def Board.start : Board :=
  ⟨0x00FF00000000FF00, 0x4200000000000042, 0x2400000000000024, 0x8100000000000081,
    0x0800000000000008, 0x1000000000000010, 0x000000000000FFFF, 0xFFFF000000000000,
    .white, Castles.all, Option.none, 0, 1⟩

/-- Witness for `fen_roundtrip` at the start position. -/
theorem fen_roundtrip_witness :
    Board.start.WF ∧ Board.fromFen Board.start.fenChars = .ok Board.start :=
  ⟨by decide, fen_roundtrip Board.start (by decide)⟩

/-! ## NNUE hidden layer, SIMD backends (`src/lib/nnue/hidden.rs`)

Vectors are embedded as functions out of `Nat`: a 256-bit register is
its 32 bytes (values in `[0, 256)`), a 16-bit-lane view is 16 lanes
(values in `[0, 2^16)`, two's complement) and a 32-bit-lane view is 8
lanes.  Each intrinsic is a function between such views, following the
architecture manuals' lane semantics; reinterpretations between views
are the explicit functions noted below.  `/` and `%` on `Int` are
floor division and nonnegative remainder, which match arithmetic shift
right and unsigned-lane storage. -/

/-- The signed value of an 8-bit byte. -/
def s8 (v : Int) : Int := if v < 128 then v else v - 256

/-- The signed value of a 16-bit lane. -/
def s16 (v : Int) : Int := if v < 32768 then v else v - 65536

/-- The signed value of a 32-bit lane. -/
def s32 (v : Int) : Int := if v < 2 ^ 31 then v else v - 2 ^ 32

/-- Unsigned saturation of a signed 16-bit value to a byte (the per-lane
operation of `packus_epi16` and `vqmovun_s16`). -/
def sat8u (x : Int) : Int := max 0 (min x 255)

/-- Signed saturation to 16 bits (the per-lane overflow behaviour of
`maddubs` and `vqrdmulh`). -/
def sat16 (x : Int) : Int := max (-32768) (min x 32767)

/-- The all-zero register (`_mm256_setzero_si256` / `_mm_setzero_si128`). -/
def setzeroV : Nat → Int := fun _ => 0

/-- The 16-bit-lane view of a byte register (little endian). -/
def asU16 (v : Nat → Int) : Nat → Int := fun i => v (2 * i) + 256 * v (2 * i + 1)

/-- `_mm256_packus_epi16 a b`: per 128-bit half, the eight saturated
bytes of `a`'s half followed by the eight of `b`'s half. -/
def packus256 (a b : Nat → Int) : Nat → Int := fun i =>
  if i < 8 then sat8u (s16 (a i))
  else if i < 16 then sat8u (s16 (b (i - 8)))
  else if i < 24 then sat8u (s16 (a (i - 8)))
  else sat8u (s16 (b (i - 16)))

/-- `_mm256_unpacklo_epi8 a b`: per 128-bit half, interleaves the low
eight bytes of `a` and `b`. -/
def unpacklo256 (a b : Nat → Int) : Nat → Int := fun i =>
  let j := i % 16
  let base := 16 * (i / 16)
  if j % 2 = 0 then a (base + j / 2) else b (base + j / 2)

/-- `_mm256_unpackhi_epi8 a b`: per 128-bit half, interleaves the high
eight bytes of `a` and `b`. -/
def unpackhi256 (a b : Nat → Int) : Nat → Int := fun i =>
  let j := i % 16
  let base := 16 * (i / 16)
  if j % 2 = 0 then a (base + 8 + j / 2) else b (base + 8 + j / 2)

/-- `_mm256_slli_epi16` (and `_mm_slli_epi16`, `vshlq_u16`): shift each
16-bit lane left, truncating to 16 bits. -/
def slli16 (v : Nat → Int) (k : Nat) : Nat → Int := fun i => v i * 2 ^ k % 65536

/-- `_mm256_mulhrs_epi16` (and `_mm_mulhrs_epi16`): per signed 16-bit
lane, `((a * b >> 14) + 1) >> 1`, truncated to the lane. -/
def mulhrs16 (a b : Nat → Int) : Nat → Int := fun i =>
  (s16 (a i) * s16 (b i) / 16384 + 1) / 2 % 65536

/-- `_mm256_permute4x64_epi64` with `_MM_SHUFFLE(3, 1, 2, 0)`: 64-bit
lanes reordered to `[0, 2, 1, 3]`. -/
def permute4x64_0213 (v : Nat → Int) : Nat → Int := fun i =>
  let lane := i / 8
  let j := i % 8
  let src := if lane = 0 then 0 else if lane = 1 then 2 else if lane = 2 then 1 else 3
  v (8 * src + j)

/-- `_mm256_maddubs_epi16` (and `_mm_maddubs_epi16`): per 16-bit lane,
the signed-saturated sum of the two products of unsigned bytes of `a`
with signed bytes of `b`. -/
def maddubs16 (a b : Nat → Int) : Nat → Int := fun i =>
  sat16 (a (2 * i) * s8 (b (2 * i)) + a (2 * i + 1) * s8 (b (2 * i + 1))) % 65536

/-- `_mm256_madd_epi16` (and `_mm_madd_epi16`): per 32-bit lane, the sum
of the two products of signed 16-bit lanes, wrapping. -/
def madd16 (a b : Nat → Int) : Nat → Int := fun i =>
  (s16 (a (2 * i)) * s16 (b (2 * i)) + s16 (a (2 * i + 1)) * s16 (b (2 * i + 1))) % 4294967296

/-- `_mm256_set1_epi16` / `_mm_set1_epi16`. -/
def set1_16 (c : Int) : Nat → Int := fun _ => c % 65536

/-- `_mm256_add_epi32` / `_mm_add_epi32` / NEON vector add: per 32-bit
lane, wrapping addition. -/
def add32 (a b : Nat → Int) : Nat → Int := fun i => (a i + b i) % 4294967296

/-- `_mm256_setr_epi32(bias, 0, …, 0)` (and the SSE/NEON loads of
`[bias, 0, 0, 0]`). -/
def setrBias (bias : Int) : Nat → Int := fun i => if i = 0 then bias % 4294967296 else 0

/-- The 16-bit lanes of 16 consecutive `i16` array elements (the
`transmute` of an `&[i16; N]` sub-slice into a register). -/
def loadI16 (x : Nat → Int) (off : Nat) : Nat → Int := fun i => x (off + i) % 65536

/-- The bytes of consecutive `i8` array elements (the `transmute` of an
`&[i8; N]` sub-slice into a register). -/
def loadI8 (w : Nat → Int) (off : Nat) : Nat → Int := fun i => w (off + i) % 256

/-- The inner `sqrcrelu` helper of `Hidden::avx2`. -/
def sqrcrelu256 (p q : Nat → Int) : Nat → Int :=
  let r := packus256 p q
  let p2 := slli16 (asU16 (unpacklo256 r setzeroV)) 3
  let q2 := slli16 (asU16 (unpackhi256 r setzeroV)) 3
  permute4x64_0213 (packus256 (mulhrs16 p2 p2) (mulhrs16 q2 q2))

/-- The inner `dot` helper of `Hidden::avx2`. -/
def dot256 (p q r : Nat → Int) : Nat → Int :=
  add32 r (madd16 (maddubs16 p q) (set1_16 1))

/-- One iteration of the `array_chunks::<128>` loop of `Hidden::avx2`:
the chunk is viewed as `[[__m256i; 2]; 4]` of inputs and `[__m256i; 4]`
of weights. -/
def avx2Chunk (w x : Nat → Int) (off : Nat) (y : Nat → Int) : Nat → Int :=
  let y := dot256 (sqrcrelu256 (loadI16 x off) (loadI16 x (off + 16))) (loadI8 w off) y
  let y := dot256 (sqrcrelu256 (loadI16 x (off + 32)) (loadI16 x (off + 48)))
    (loadI8 w (off + 32)) y
  let y := dot256 (sqrcrelu256 (loadI16 x (off + 64)) (loadI16 x (off + 80)))
    (loadI8 w (off + 64)) y
  dot256 (sqrcrelu256 (loadI16 x (off + 96)) (loadI16 x (off + 112))) (loadI8 w (off + 96)) y

/-- The chunk loop of `Hidden::avx2` over one side (`k` chunks of 128). -/
def avx2Side (w x : Nat → Int) (k : Nat) (y : Nat → Int) : Nat → Int :=
  (List.range k).foldl (fun y c => avx2Chunk w x (128 * c) y) y

/-- `_mm256_extracti128_si256(v, 1)`: the high four 32-bit lanes. -/
def extracti128hi (v : Nat → Int) : Nat → Int := fun i => v (i + 4)

/-- `_mm_unpackhi_epi64 a b` on the 32-bit-lane view: `[a2, a3, b2, b3]`. -/
def unpackhi64 (a b : Nat → Int) : Nat → Int := fun i =>
  if i = 0 then a 2 else if i = 1 then a 3 else if i = 2 then b 2 else b 3

/-- `_mm_shuffle_epi32` with `_MM_SHUFFLE(2, 3, 0, 1)`: lanes
`[1, 0, 3, 2]`. -/
def shuffle32_1032 (v : Nat → Int) : Nat → Int := fun i =>
  if i = 0 then v 1 else if i = 1 then v 0 else if i = 2 then v 3 else v 2

/-- The horizontal-add tail of `Hidden::avx2`
(`castsi256_si128`/`extracti128`/adds/shuffles/`extract_epi32(r, 0)`).
The cast to the low 128 bits keeps lanes 0–3 as they are. -/
def avx2Tail (y : Nat → Int) : Int :=
  let r := y
  let s := extracti128hi y
  let r := add32 r s
  let s := unpackhi64 r r
  let r := add32 r s
  let s := shuffle32_1032 r
  let r := add32 r s
  s32 (r 0)

/-- `Hidden::avx2` over inputs of length `128 * k`: the bias in lane 0,
both sides folded chunk-wise, then the horizontal add. -/
def Hidden.avx2 (k : Nat) (bias : Int) (wus wthem us them : Nat → Int) : Int :=
  avx2Tail (avx2Side wthem them k (avx2Side wus us k (setrBias bias)))

/-! ### Per-lane values of the AVX2 pipeline -/

lemma s16_emod (x : Int) (h : -32768 ≤ x ∧ x < 32768) : s16 (x % 65536) = x := by
  unfold s16
  omega

lemma s8_emod (x : Int) (h : -128 ≤ x ∧ x < 128) : s8 (x % 256) = x := by
  unfold s8
  omega

lemma mulhrs_core (c : Int) (h0 : 0 ≤ c) (h255 : c ≤ 255) :
    sat8u (s16 ((s16 (c * 8 % 65536) * s16 (c * 8 % 65536) / 16384 + 1) / 2 % 65536)) =
      ((c * 8) ^ 2 + 16384) / 32768 := by
  interval_cases c <;> decide

lemma lane_value_core (x : Int) :
    sat8u (s16 ((s16 (sat8u x * 8 % 65536) * s16 (sat8u x * 8 % 65536) / 16384 + 1) / 2
      % 65536)) = sqrTerm x := by
  have h0 : 0 ≤ sat8u x := by unfold sat8u; omega
  have h255 : sat8u x ≤ 255 := by unfold sat8u; omega
  rw [mulhrs_core (sat8u x) h0 h255]
  rfl

lemma sqrTerm_bounds (x : Int) : 0 ≤ sqrTerm x ∧ sqrTerm x ≤ 127 := by
  unfold sqrTerm
  obtain ⟨c, hc, hc0, hc255⟩ : ∃ c : Int, max 0 (min x 255) = c ∧ 0 ≤ c ∧ c ≤ 255 :=
    ⟨max 0 (min x 255), rfl, le_max_left 0 _,
      max_le (by norm_num) (min_le_right x 255)⟩
  rw [hc]
  interval_cases c <;> decide

/-- Byte permutation performed by `packus256` on two loaded `i16` registers. -/
def packIdx (t : Nat) : Nat :=
  if t < 8 then t else if t < 16 then t + 8 else if t < 24 then t - 8 else t

lemma packus_load_lane (xv : Nat → Int) (off : Nat)
    (hx : ∀ i, -32768 ≤ xv i ∧ xv i < 32768) :
    ∀ t, t < 32 →
      packus256 (loadI16 xv off) (loadI16 xv (off + 16)) t = sat8u (xv (off + packIdx t)) := by
  intro t ht
  interval_cases t <;>
    simp only [packus256, loadI16, packIdx] <;>
    norm_num [Nat.add_assoc] <;>
    rw [s16_emod _ (hx _)]

/-- Byte source of 16-bit lane `L` after `unpacklo` with zero. -/
def loIdx (L : Nat) : Nat := if L < 8 then L else L + 8

/-- Byte source of 16-bit lane `L` after `unpackhi` with zero. -/
def hiIdx (L : Nat) : Nat := if L < 8 then L + 8 else L + 16

lemma p2_lane (r : Nat → Int) : ∀ L, L < 16 →
    slli16 (asU16 (unpacklo256 r setzeroV)) 3 L = r (loIdx L) * 8 % 65536 := by
  intro L hL
  interval_cases L <;>
    simp only [slli16, asU16, unpacklo256, setzeroV, loIdx] <;> norm_num

lemma q2_lane (r : Nat → Int) : ∀ L, L < 16 →
    slli16 (asU16 (unpackhi256 r setzeroV)) 3 L = r (hiIdx L) * 8 % 65536 := by
  intro L hL
  interval_cases L <;>
    simp only [slli16, asU16, unpackhi256, setzeroV, hiIdx] <;> norm_num

/-- Lane `m` of the AVX2 `sqrcrelu` over 32 consecutive `i16` inputs is
exactly the scalar reference's quantized square-ReLU of input `m`: the
pack/unpack/permute plumbing restores element order. -/
lemma sqrcrelu256_lane (xv : Nat → Int) (off : Nat)
    (hx : ∀ i, -32768 ≤ xv i ∧ xv i < 32768) :
    ∀ m, m < 32 →
      sqrcrelu256 (loadI16 xv off) (loadI16 xv (off + 16)) m = sqrTerm (xv (off + m)) := by
  intro m hm
  interval_cases m
  all_goals
    simp only [sqrcrelu256]
    generalize hr : packus256 (loadI16 xv off) (loadI16 xv (off + 16)) = r
    simp only [permute4x64_0213]
    norm_num
    simp only [packus256]
    norm_num
    simp only [mulhrs16]
    simp (disch := norm_num) only [p2_lane, q2_lane]
    norm_num [loIdx, hiIdx]
    subst hr
    rw [packus_load_lane xv off hx _ (by norm_num)]
    norm_num [packIdx]
    exact lane_value_core _

lemma s8_bounds (v : Int) (h : 0 ≤ v ∧ v < 256) : -128 ≤ s8 v ∧ s8 v < 128 := by
  unfold s8
  omega

lemma mul_small_bounds (a b : Int) (ha0 : 0 ≤ a) (ha : a ≤ 127) (hb0 : -128 ≤ b)
    (hb : b < 128) : -16256 ≤ a * b ∧ a * b ≤ 16129 := by
  constructor
  · have h1 : a * (-128) ≤ a * b := mul_le_mul_of_nonneg_left hb0 ha0
    nlinarith
  · have h1 : a * b ≤ a * 127 := mul_le_mul_of_nonneg_left (by omega) ha0
    nlinarith

lemma maddubs_lane_val (p q : Nat → Int) (i : Nat)
    (hp : 0 ≤ p (2 * i) ∧ p (2 * i) ≤ 127) (hp2 : 0 ≤ p (2 * i + 1) ∧ p (2 * i + 1) ≤ 127)
    (hq : -128 ≤ s8 (q (2 * i)) ∧ s8 (q (2 * i)) < 128)
    (hq2 : -128 ≤ s8 (q (2 * i + 1)) ∧ s8 (q (2 * i + 1)) < 128) :
    s16 (maddubs16 p q i) =
      p (2 * i) * s8 (q (2 * i)) + p (2 * i + 1) * s8 (q (2 * i + 1)) := by
  unfold maddubs16
  have h1 := mul_small_bounds _ _ hp.1 hp.2 hq.1 hq.2
  have h2 := mul_small_bounds _ _ hp2.1 hp2.2 hq2.1 hq2.2
  have hs : sat16 (p (2 * i) * s8 (q (2 * i)) + p (2 * i + 1) * s8 (q (2 * i + 1))) =
      p (2 * i) * s8 (q (2 * i)) + p (2 * i + 1) * s8 (q (2 * i + 1)) := by
    unfold sat16
    omega
  rw [hs, s16_emod _ (by omega)]

/-- Accumulator lane `j` of `dot(y, p, q)`: four products are folded in,
wrapping modulo `2^32`, provided `p` holds bytes in `[0, 127]` (the
squared-clamp outputs) and `q` holds raw bytes. -/
lemma dot_lane (p q y : Nat → Int) (j : Nat)
    (hp : ∀ m, m < 32 → 0 ≤ p m ∧ p m ≤ 127)
    (hq : ∀ m, 0 ≤ q m ∧ q m < 256) (hj : j < 8) :
    dot256 p q y j =
      (y j + (p (4 * j) * s8 (q (4 * j)) + p (4 * j + 1) * s8 (q (4 * j + 1)) +
        p (4 * j + 2) * s8 (q (4 * j + 2)) + p (4 * j + 3) * s8 (q (4 * j + 3))))
        % 4294967296 := by
  unfold dot256 add32 madd16 set1_16
  have h1 : s16 ((1 : Int) % 65536) = 1 := by decide
  rw [h1]
  have e1 := maddubs_lane_val p q (2 * j)
    (hp _ (by omega)) (hp _ (by omega)) (s8_bounds _ (hq _)) (s8_bounds _ (hq _))
  have e2 := maddubs_lane_val p q (2 * j + 1)
    (hp _ (by omega)) (hp _ (by omega)) (s8_bounds _ (hq _)) (s8_bounds _ (hq _))
  rw [e1, e2, mul_one, mul_one]
  have i1 : 2 * (2 * j) = 4 * j := by ring
  have i3 : 2 * (2 * j + 1) = 4 * j + 2 := by ring
  rw [i1, i3]
  have i4 : 4 * j + 2 + 1 = 4 * j + 3 := by omega
  rw [i4]
  generalize p (4 * j) * s8 (q (4 * j)) = A
  generalize p (4 * j + 1) * s8 (q (4 * j + 1)) = B
  generalize p (4 * j + 2) * s8 (q (4 * j + 2)) = C
  generalize p (4 * j + 3) * s8 (q (4 * j + 3)) = D
  omega

/-- Contribution of one 4-byte group to accumulator lane `j` (products in
the order the `maddubs`/`madd` pipeline produces them). -/
def groupLane (w x : Nat → Int) (off j : Nat) : Int :=
  sqrTerm (x (off + (4 * j))) * s8 (w (off + (4 * j)) % 256) +
  sqrTerm (x (off + (4 * j + 1))) * s8 (w (off + (4 * j + 1)) % 256) +
  sqrTerm (x (off + (4 * j + 2))) * s8 (w (off + (4 * j + 2)) % 256) +
  sqrTerm (x (off + (4 * j + 3))) * s8 (w (off + (4 * j + 3)) % 256)

/-- Contribution of one 128-element chunk to accumulator lane `j`. -/
def chunkLane (w x : Nat → Int) (off j : Nat) : Int :=
  groupLane w x off j + groupLane w x (off + 32) j + groupLane w x (off + 64) j +
    groupLane w x (off + 96) j

lemma avx2Chunk_lane (w x : Nat → Int) (off : Nat) (y : Nat → Int) (j : Nat) (hj : j < 8)
    (hx : ∀ i, -32768 ≤ x i ∧ x i < 32768) :
    avx2Chunk w x off y j = (y j + chunkLane w x off j) % 4294967296 := by
  have hq : ∀ (o : Nat) (m : Nat), 0 ≤ loadI8 w o m ∧ loadI8 w o m < 256 := by
    intro o m
    unfold loadI8
    constructor
    · exact Int.emod_nonneg _ (by norm_num)
    · exact Int.emod_lt_of_pos _ (by norm_num)
  have hp : ∀ (o : Nat) (m : Nat), m < 32 →
      0 ≤ sqrcrelu256 (loadI16 x o) (loadI16 x (o + 16)) m ∧
        sqrcrelu256 (loadI16 x o) (loadI16 x (o + 16)) m ≤ 127 := by
    intro o m hm
    rw [sqrcrelu256_lane x o hx m hm]
    exact sqrTerm_bounds _
  simp only [avx2Chunk]
  have h48 : off + 48 = off + 32 + 16 := by omega
  have h80 : off + 80 = off + 64 + 16 := by omega
  have h112 : off + 112 = off + 96 + 16 := by omega
  rw [h48, h80, h112]
  rw [dot_lane _ _ _ j (hp _) (hq _) hj, dot_lane _ _ _ j (hp _) (hq _) hj,
    dot_lane _ _ _ j (hp _) (hq _) hj, dot_lane _ _ _ j (hp _) (hq _) hj]
  simp (disch := omega) only [sqrcrelu256_lane x _ hx]
  simp only [loadI8]
  unfold chunkLane groupLane
  generalize setA : sqrTerm (x (off + (4 * j))) * s8 (w (off + (4 * j)) % 256) = A1
  generalize sqrTerm (x (off + (4 * j + 1))) * s8 (w (off + (4 * j + 1)) % 256) = A2
  generalize sqrTerm (x (off + (4 * j + 2))) * s8 (w (off + (4 * j + 2)) % 256) = A3
  generalize sqrTerm (x (off + (4 * j + 3))) * s8 (w (off + (4 * j + 3)) % 256) = A4
  generalize sqrTerm (x (off + 32 + (4 * j))) * s8 (w (off + 32 + (4 * j)) % 256) = B1
  generalize sqrTerm (x (off + 32 + (4 * j + 1))) * s8 (w (off + 32 + (4 * j + 1)) % 256) = B2
  generalize sqrTerm (x (off + 32 + (4 * j + 2))) * s8 (w (off + 32 + (4 * j + 2)) % 256) = B3
  generalize sqrTerm (x (off + 32 + (4 * j + 3))) * s8 (w (off + 32 + (4 * j + 3)) % 256) = B4
  generalize sqrTerm (x (off + 64 + (4 * j))) * s8 (w (off + 64 + (4 * j)) % 256) = C1
  generalize sqrTerm (x (off + 64 + (4 * j + 1))) * s8 (w (off + 64 + (4 * j + 1)) % 256) = C2
  generalize sqrTerm (x (off + 64 + (4 * j + 2))) * s8 (w (off + 64 + (4 * j + 2)) % 256) = C3
  generalize sqrTerm (x (off + 64 + (4 * j + 3))) * s8 (w (off + 64 + (4 * j + 3)) % 256) = C4
  generalize sqrTerm (x (off + 96 + (4 * j))) * s8 (w (off + 96 + (4 * j)) % 256) = D1
  generalize sqrTerm (x (off + 96 + (4 * j + 1))) * s8 (w (off + 96 + (4 * j + 1)) % 256) = D2
  generalize sqrTerm (x (off + 96 + (4 * j + 2))) * s8 (w (off + 96 + (4 * j + 2)) % 256) = D3
  generalize sqrTerm (x (off + 96 + (4 * j + 3))) * s8 (w (off + 96 + (4 * j + 3)) % 256) = D4
  omega

/-- Total contribution of `k` chunks to accumulator lane `j`. -/
def laneTotal (w x : Nat → Int) (j : Nat) : Nat → Int
  | 0 => 0
  | n + 1 => laneTotal w x j n + chunkLane w x (128 * n) j

lemma avx2Side_lane (w x : Nat → Int) (hx : ∀ i, -32768 ≤ x i ∧ x i < 32768)
    (j : Nat) (hj : j < 8) (y : Nat → Int)
    (hy : 0 ≤ y j ∧ y j < 4294967296) :
    ∀ k, avx2Side w x k y j = (y j + laneTotal w x j k) % 4294967296 := by
  intro k
  induction k with
  | zero =>
      simp only [avx2Side, List.range_zero, List.foldl_nil, laneTotal]
      omega
  | succ n ih =>
      have hstep : avx2Side w x (n + 1) y = avx2Chunk w x (128 * n) (avx2Side w x n y) := by
        unfold avx2Side
        rw [List.range_succ, List.foldl_append]
        rfl
      rw [hstep, avx2Chunk_lane w x _ _ j hj hx, ih]
      show _ = (y j + (laneTotal w x j n + chunkLane w x (128 * n) j)) % 4294967296
      generalize y j = Y
      generalize laneTotal w x j n = T
      generalize chunkLane w x (128 * n) j = C
      omega

lemma avx2Tail_eq (y : Nat → Int) :
    avx2Tail y = s32 ((y 0 + y 1 + y 2 + y 3 + y 4 + y 5 + y 6 + y 7) % 4294967296) := by
  simp only [avx2Tail, add32, extracti128hi, unpackhi64, shuffle32_1032]
  norm_num
  congr 1
  generalize y 0 = a0
  generalize y 1 = a1
  generalize y 2 = a2
  generalize y 3 = a3
  generalize y 4 = a4
  generalize y 5 = a5
  generalize y 6 = a6
  generalize y 7 = a7
  omega

lemma s32_emod_wrap32 (a : Int) : s32 (a % 4294967296) = wrap32 a := by
  unfold s32 wrap32
  split <;> omega

lemma chunk_sum_eq (w x : Nat → Int) (hw : ∀ i, -128 ≤ w i ∧ w i < 128) (B : Nat) :
    chunkLane w x B 0 + chunkLane w x B 1 + chunkLane w x B 2 + chunkLane w x B 3 +
    chunkLane w x B 4 + chunkLane w x B 5 + chunkLane w x B 6 + chunkLane w x B 7 =
      ((List.range 128).map (fun r => w (B + r) * sqrTerm (x (B + r)))).sum := by
  simp (disch := exact hw _) only [chunkLane, groupLane, s8_emod]
  simp only [List.sum_range_succ, List.range_zero, List.map_nil, List.sum_nil]
  norm_num [Nat.add_assoc]
  ring

lemma laneTotal_sum (w x : Nat → Int) (hw : ∀ i, -128 ≤ w i ∧ w i < 128) : ∀ k,
    laneTotal w x 0 k + laneTotal w x 1 k + laneTotal w x 2 k + laneTotal w x 3 k +
    laneTotal w x 4 k + laneTotal w x 5 k + laneTotal w x 6 k + laneTotal w x 7 k =
      ((List.range (128 * k)).map (fun i => w i * sqrTerm (x i))).sum := by
  intro k
  induction k with
  | zero => simp [laneTotal]
  | succ n ih =>
      have hr : 128 * (n + 1) = 128 * n + 128 := by ring
      rw [hr, List.range_add, List.map_append, List.sum_append, List.map_map]
      simp only [laneTotal, Function.comp_def]
      rw [← ih, ← chunk_sum_eq w x hw (128 * n)]
      ring

/-- `Hidden::avx2` computes the same `i32` as `Hidden::scalar` on inputs
of length `128 * k`, in-range `i16` inputs and `i8` weights assumed. -/
lemma avx2_eq_scalar (k : Nat) (bias : Int) (wus wthem us them : Nat → Int)
    (hb : -2 ^ 31 ≤ bias ∧ bias < 2 ^ 31)
    (hwus : ∀ i, -128 ≤ wus i ∧ wus i < 128)
    (hwthem : ∀ i, -128 ≤ wthem i ∧ wthem i < 128)
    (hus : ∀ i, -32768 ≤ us i ∧ us i < 32768)
    (hthem : ∀ i, -32768 ≤ them i ∧ them i < 32768) :
    Hidden.avx2 k bias wus wthem us them = Hidden.scalar (128 * k) bias wus wthem us them := by
  rw [scalar_eq_wrap32 _ _ _ _ _ _ hb.1 hb.2]
  unfold Hidden.avx2
  rw [avx2Tail_eq]
  have hy0 : ∀ j : Nat, 0 ≤ setrBias bias j ∧ setrBias bias j < 4294967296 := by
    intro j
    unfold setrBias
    split
    · exact ⟨Int.emod_nonneg _ (by norm_num), Int.emod_lt_of_pos _ (by norm_num)⟩
    · norm_num
  have hin : ∀ j, j < 8 → avx2Side wus us k (setrBias bias) j =
      (setrBias bias j + laneTotal wus us j k) % 4294967296 := by
    intro j hj
    exact avx2Side_lane wus us hus j hj _ (hy0 j) k
  have hinB : ∀ j, j < 8 → 0 ≤ avx2Side wus us k (setrBias bias) j ∧
      avx2Side wus us k (setrBias bias) j < 4294967296 := by
    intro j hj
    rw [hin j hj]
    exact ⟨Int.emod_nonneg _ (by norm_num), Int.emod_lt_of_pos _ (by norm_num)⟩
  have hout : ∀ j, j < 8 → avx2Side wthem them k (avx2Side wus us k (setrBias bias)) j =
      ((setrBias bias j + laneTotal wus us j k) % 4294967296 +
        laneTotal wthem them j k) % 4294967296 := by
    intro j hj
    rw [avx2Side_lane wthem them hthem j hj _ (hinB j hj) k, hin j hj]
  rw [hout 0 (by norm_num), hout 1 (by norm_num), hout 2 (by norm_num),
    hout 3 (by norm_num), hout 4 (by norm_num), hout 5 (by norm_num),
    hout 6 (by norm_num), hout 7 (by norm_num)]
  simp only [setrBias]
  norm_num
  rw [s32_emod_wrap32]
  rw [← laneTotal_sum wus us hwus k, ← laneTotal_sum wthem them hwthem k]
  unfold wrap32
  generalize laneTotal wus us 0 k = T0
  generalize laneTotal wus us 1 k = T1
  generalize laneTotal wus us 2 k = T2
  generalize laneTotal wus us 3 k = T3
  generalize laneTotal wus us 4 k = T4
  generalize laneTotal wus us 5 k = T5
  generalize laneTotal wus us 6 k = T6
  generalize laneTotal wus us 7 k = T7
  generalize laneTotal wthem them 0 k = U0
  generalize laneTotal wthem them 1 k = U1
  generalize laneTotal wthem them 2 k = U2
  generalize laneTotal wthem them 3 k = U3
  generalize laneTotal wthem them 4 k = U4
  generalize laneTotal wthem them 5 k = U5
  generalize laneTotal wthem them 6 k = U6
  generalize laneTotal wthem them 7 k = U7
  omega

/-! ## `Hidden::sse` (`src/lib/nnue/hidden.rs`), 128-bit registers: 16
bytes, eight 16-bit lanes, four 32-bit lanes -/

/-- `_mm_packus_epi16 a b`: the eight saturated bytes of `a` followed by
the eight of `b`. -/
def packus128 (a b : Nat → Int) : Nat → Int := fun i =>
  if i < 8 then sat8u (s16 (a i)) else sat8u (s16 (b (i - 8)))

/-- `_mm_unpacklo_epi8 a b`: interleaves the low eight bytes. -/
def unpacklo128 (a b : Nat → Int) : Nat → Int := fun i =>
  if i % 2 = 0 then a (i / 2) else b (i / 2)

/-- `_mm_unpackhi_epi8 a b`: interleaves the high eight bytes. -/
def unpackhi128 (a b : Nat → Int) : Nat → Int := fun i =>
  if i % 2 = 0 then a (8 + i / 2) else b (8 + i / 2)

/-- The inner `sqrcrelu` helper of `Hidden::sse`. -/
def sqrcrelu128 (p q : Nat → Int) : Nat → Int :=
  let r := packus128 p q
  let p2 := slli16 (asU16 (unpacklo128 r setzeroV)) 3
  let q2 := slli16 (asU16 (unpackhi128 r setzeroV)) 3
  packus128 (mulhrs16 p2 p2) (mulhrs16 q2 q2)

/-- The inner `dot` helper of `Hidden::sse` (the `_mm_` intrinsics act on
the lane model exactly as their `_mm256_` counterparts). -/
def dot128 (p q r : Nat → Int) : Nat → Int :=
  add32 r (madd16 (maddubs16 p q) (set1_16 1))

/-- One iteration of the `array_chunks::<64>` loop of `Hidden::sse`. -/
def sseChunk (w x : Nat → Int) (off : Nat) (y : Nat → Int) : Nat → Int :=
  let y := dot128 (sqrcrelu128 (loadI16 x off) (loadI16 x (off + 8))) (loadI8 w off) y
  let y := dot128 (sqrcrelu128 (loadI16 x (off + 16)) (loadI16 x (off + 24)))
    (loadI8 w (off + 16)) y
  let y := dot128 (sqrcrelu128 (loadI16 x (off + 32)) (loadI16 x (off + 40)))
    (loadI8 w (off + 32)) y
  dot128 (sqrcrelu128 (loadI16 x (off + 48)) (loadI16 x (off + 56))) (loadI8 w (off + 48)) y

/-- The chunk loop of `Hidden::sse` over one side (`k` chunks of 64). -/
def sseSide (w x : Nat → Int) (k : Nat) (y : Nat → Int) : Nat → Int :=
  (List.range k).foldl (fun y c => sseChunk w x (64 * c) y) y

/-- `_mm_shuffle_epi32` with `_MM_SHUFFLE(1, 0, 3, 2)`: lanes
`[2, 3, 0, 1]`. -/
def shuffle32_2301 (v : Nat → Int) : Nat → Int := fun i =>
  if i = 0 then v 2 else if i = 1 then v 3 else if i = 2 then v 0 else v 1

/-- `_mm_shufflelo_epi16` with `_MM_SHUFFLE(1, 0, 3, 2)` on the
32-bit-lane view: the 16-bit shuffle moves the pairs `(0, 1)` and
`(2, 3)` of low 16-bit lanes wholesale, so it swaps 32-bit lanes 0 and 1
and keeps lanes 2 and 3. -/
def shufflelo32 (v : Nat → Int) : Nat → Int := fun i =>
  if i = 0 then v 1 else if i = 1 then v 0 else v i

/-- The horizontal-add tail of `Hidden::sse`
(`shuffle`/`add`/`shufflelo`/`add`/`_mm_cvtsi128_si32`). -/
def sseTail (y : Nat → Int) : Int :=
  let r := shuffle32_2301 y
  let s := add32 r y
  let r2 := shufflelo32 s
  let s2 := add32 r2 s
  s32 (s2 0)

/-- `Hidden::sse` over inputs of length `64 * k`. -/
def Hidden.sse (k : Nat) (bias : Int) (wus wthem us them : Nat → Int) : Int :=
  sseTail (sseSide wthem them k (sseSide wus us k (setrBias bias)))

/-! ## `Hidden::neon` (`src/lib/nnue/hidden.rs`) -/

/-- `vqmovun_s16`: saturate each signed 16-bit lane into an unsigned
byte. -/
def vqmovun16 (v : Nat → Int) : Nat → Int := fun i => sat8u (s16 (v i))

/-- `vmovl_u8`: widen eight bytes to 16-bit lanes (the identity on the
function model). -/
def vmovl8 (v : Nat → Int) : Nat → Int := fun i => v i

/-- `vqrdmulhq_s16`: per signed 16-bit lane, the saturating rounding
doubling multiply returning the high half, `sat16((2ab + 2^15) >> 16)`,
stored back as a 16-bit lane. -/
def vqrdmulh16 (a b : Nat → Int) : Nat → Int := fun i =>
  sat16 ((2 * s16 (a i) * s16 (b i) + 32768) / 65536) % 65536

/-- `vcombine_u8 a b`: the eight bytes of `a` followed by those of `b`. -/
def vcombine8 (a b : Nat → Int) : Nat → Int := fun i =>
  if i < 8 then a i else b (i - 8)

/-- The inner `sqrcrelu` helper of `Hidden::neon` (`vshlq_u16` by 3 is
`slli16 _ 3`). -/
def neonSqrcrelu (p q : Nat → Int) : Nat → Int :=
  let p1 := vmovl8 (vqmovun16 p)
  let q1 := vmovl8 (vqmovun16 q)
  let p2 := slli16 p1 3
  let q2 := slli16 q1 3
  vcombine8 (vqmovun16 (vqrdmulh16 p2 p2)) (vqmovun16 (vqrdmulh16 q2 q2))

/-- `vdotq_s32 r p q` after the `transmute` of `p` to signed bytes: per
32-bit lane, four signed-byte products accumulated, wrapping. -/
def vdot32 (r p q : Nat → Int) : Nat → Int := fun j =>
  (r j + (s8 (p (4 * j)) * s8 (q (4 * j)) + s8 (p (4 * j + 1)) * s8 (q (4 * j + 1)) +
    s8 (p (4 * j + 2)) * s8 (q (4 * j + 2)) + s8 (p (4 * j + 3)) * s8 (q (4 * j + 3))))
    % 4294967296

/-- One iteration of the `array_chunks::<64>` loop of `Hidden::neon`. -/
def neonChunk (w x : Nat → Int) (off : Nat) (y : Nat → Int) : Nat → Int :=
  let y := vdot32 y (neonSqrcrelu (loadI16 x off) (loadI16 x (off + 8))) (loadI8 w off)
  let y := vdot32 y (neonSqrcrelu (loadI16 x (off + 16)) (loadI16 x (off + 24)))
    (loadI8 w (off + 16))
  let y := vdot32 y (neonSqrcrelu (loadI16 x (off + 32)) (loadI16 x (off + 40)))
    (loadI8 w (off + 32))
  vdot32 y (neonSqrcrelu (loadI16 x (off + 48)) (loadI16 x (off + 56))) (loadI8 w (off + 48))

/-- The chunk loop of `Hidden::neon` over one side (`k` chunks of 64). -/
def neonSide (w x : Nat → Int) (k : Nat) (y : Nat → Int) : Nat → Int :=
  (List.range k).foldl (fun y c => neonChunk w x (64 * c) y) y

/-- `vaddvq_s32`: the wrapping horizontal sum of the four lanes. -/
def neonTail (y : Nat → Int) : Int :=
  s32 ((y 0 + y 1 + y 2 + y 3) % 4294967296)

/-- `Hidden::neon` over inputs of length `64 * k`. -/
def Hidden.neon (k : Nat) (bias : Int) (wus wthem us them : Nat → Int) : Int :=
  neonTail (neonSide wthem them k (neonSide wus us k (setrBias bias)))

/-! ### Per-lane values of the SSE pipeline -/

lemma packus128_load_lane (xv : Nat → Int) (off : Nat)
    (hx : ∀ i, -32768 ≤ xv i ∧ xv i < 32768) :
    ∀ t, t < 16 →
      packus128 (loadI16 xv off) (loadI16 xv (off + 8)) t = sat8u (xv (off + t)) := by
  intro t ht
  interval_cases t <;>
    simp only [packus128, loadI16] <;>
    norm_num [Nat.add_assoc] <;>
    rw [s16_emod _ (hx _)]

lemma p2_lane128 (r : Nat → Int) : ∀ L, L < 8 →
    slli16 (asU16 (unpacklo128 r setzeroV)) 3 L = r L * 8 % 65536 := by
  intro L hL
  interval_cases L <;>
    simp only [slli16, asU16, unpacklo128, setzeroV] <;> norm_num

lemma q2_lane128 (r : Nat → Int) : ∀ L, L < 8 →
    slli16 (asU16 (unpackhi128 r setzeroV)) 3 L = r (L + 8) * 8 % 65536 := by
  intro L hL
  interval_cases L <;>
    simp only [slli16, asU16, unpackhi128, setzeroV] <;> norm_num

/-- Lane `m` of the SSE `sqrcrelu` over 16 consecutive `i16` inputs is
the scalar quantized square-ReLU of input `m` (the 128-bit pack/unpack
plumbing keeps element order without any permute). -/
lemma sqrcrelu128_lane (xv : Nat → Int) (off : Nat)
    (hx : ∀ i, -32768 ≤ xv i ∧ xv i < 32768) :
    ∀ m, m < 16 →
      sqrcrelu128 (loadI16 xv off) (loadI16 xv (off + 8)) m = sqrTerm (xv (off + m)) := by
  intro m hm
  interval_cases m
  all_goals
    simp only [sqrcrelu128]
    generalize hr : packus128 (loadI16 xv off) (loadI16 xv (off + 8)) = r
    simp only [packus128]
    norm_num
    simp only [mulhrs16]
    simp (disch := norm_num) only [p2_lane128, q2_lane128]
    norm_num
    subst hr
    rw [packus128_load_lane xv off hx _ (by norm_num)]
    norm_num
    exact lane_value_core _

lemma dot128_lane (p q y : Nat → Int) (j : Nat)
    (hp : ∀ m, m < 16 → 0 ≤ p m ∧ p m ≤ 127)
    (hq : ∀ m, 0 ≤ q m ∧ q m < 256) (hj : j < 4) :
    dot128 p q y j =
      (y j + (p (4 * j) * s8 (q (4 * j)) + p (4 * j + 1) * s8 (q (4 * j + 1)) +
        p (4 * j + 2) * s8 (q (4 * j + 2)) + p (4 * j + 3) * s8 (q (4 * j + 3))))
        % 4294967296 := by
  unfold dot128 add32 madd16 set1_16
  have h1 : s16 ((1 : Int) % 65536) = 1 := by decide
  rw [h1]
  have e1 := maddubs_lane_val p q (2 * j)
    (hp _ (by omega)) (hp _ (by omega)) (s8_bounds _ (hq _)) (s8_bounds _ (hq _))
  have e2 := maddubs_lane_val p q (2 * j + 1)
    (hp _ (by omega)) (hp _ (by omega)) (s8_bounds _ (hq _)) (s8_bounds _ (hq _))
  rw [e1, e2, mul_one, mul_one]
  have i1 : 2 * (2 * j) = 4 * j := by ring
  have i3 : 2 * (2 * j + 1) = 4 * j + 2 := by ring
  rw [i1, i3]
  have i4 : 4 * j + 2 + 1 = 4 * j + 3 := by omega
  rw [i4]
  generalize p (4 * j) * s8 (q (4 * j)) = A
  generalize p (4 * j + 1) * s8 (q (4 * j + 1)) = B
  generalize p (4 * j + 2) * s8 (q (4 * j + 2)) = C
  generalize p (4 * j + 3) * s8 (q (4 * j + 3)) = D
  omega

/-- Contribution of one 64-element chunk to accumulator lane `j` of the
SSE and NEON loops. -/
def chunkLaneSse (w x : Nat → Int) (off j : Nat) : Int :=
  groupLane w x off j + groupLane w x (off + 16) j + groupLane w x (off + 32) j +
    groupLane w x (off + 48) j

lemma sseChunk_lane (w x : Nat → Int) (off : Nat) (y : Nat → Int) (j : Nat) (hj : j < 4)
    (hx : ∀ i, -32768 ≤ x i ∧ x i < 32768) :
    sseChunk w x off y j = (y j + chunkLaneSse w x off j) % 4294967296 := by
  have hq : ∀ (o : Nat) (m : Nat), 0 ≤ loadI8 w o m ∧ loadI8 w o m < 256 := by
    intro o m
    unfold loadI8
    exact ⟨Int.emod_nonneg _ (by norm_num), Int.emod_lt_of_pos _ (by norm_num)⟩
  have hp : ∀ (o : Nat) (m : Nat), m < 16 →
      0 ≤ sqrcrelu128 (loadI16 x o) (loadI16 x (o + 8)) m ∧
        sqrcrelu128 (loadI16 x o) (loadI16 x (o + 8)) m ≤ 127 := by
    intro o m hm
    rw [sqrcrelu128_lane x o hx m hm]
    exact sqrTerm_bounds _
  simp only [sseChunk]
  have h24 : off + 24 = off + 16 + 8 := by omega
  have h40 : off + 40 = off + 32 + 8 := by omega
  have h56 : off + 56 = off + 48 + 8 := by omega
  rw [h24, h40, h56]
  rw [dot128_lane _ _ _ j (hp _) (hq _) hj, dot128_lane _ _ _ j (hp _) (hq _) hj,
    dot128_lane _ _ _ j (hp _) (hq _) hj, dot128_lane _ _ _ j (hp _) (hq _) hj]
  simp (disch := omega) only [sqrcrelu128_lane x _ hx]
  simp only [loadI8]
  unfold chunkLaneSse groupLane
  generalize sqrTerm (x (off + (4 * j))) * s8 (w (off + (4 * j)) % 256) = A1
  generalize sqrTerm (x (off + (4 * j + 1))) * s8 (w (off + (4 * j + 1)) % 256) = A2
  generalize sqrTerm (x (off + (4 * j + 2))) * s8 (w (off + (4 * j + 2)) % 256) = A3
  generalize sqrTerm (x (off + (4 * j + 3))) * s8 (w (off + (4 * j + 3)) % 256) = A4
  generalize sqrTerm (x (off + 16 + (4 * j))) * s8 (w (off + 16 + (4 * j)) % 256) = B1
  generalize sqrTerm (x (off + 16 + (4 * j + 1))) * s8 (w (off + 16 + (4 * j + 1)) % 256) = B2
  generalize sqrTerm (x (off + 16 + (4 * j + 2))) * s8 (w (off + 16 + (4 * j + 2)) % 256) = B3
  generalize sqrTerm (x (off + 16 + (4 * j + 3))) * s8 (w (off + 16 + (4 * j + 3)) % 256) = B4
  generalize sqrTerm (x (off + 32 + (4 * j))) * s8 (w (off + 32 + (4 * j)) % 256) = C1
  generalize sqrTerm (x (off + 32 + (4 * j + 1))) * s8 (w (off + 32 + (4 * j + 1)) % 256) = C2
  generalize sqrTerm (x (off + 32 + (4 * j + 2))) * s8 (w (off + 32 + (4 * j + 2)) % 256) = C3
  generalize sqrTerm (x (off + 32 + (4 * j + 3))) * s8 (w (off + 32 + (4 * j + 3)) % 256) = C4
  generalize sqrTerm (x (off + 48 + (4 * j))) * s8 (w (off + 48 + (4 * j)) % 256) = D1
  generalize sqrTerm (x (off + 48 + (4 * j + 1))) * s8 (w (off + 48 + (4 * j + 1)) % 256) = D2
  generalize sqrTerm (x (off + 48 + (4 * j + 2))) * s8 (w (off + 48 + (4 * j + 2)) % 256) = D3
  generalize sqrTerm (x (off + 48 + (4 * j + 3))) * s8 (w (off + 48 + (4 * j + 3)) % 256) = D4
  omega

/-- Total contribution of `k` 64-element chunks to accumulator lane `j`. -/
def laneTotalSse (w x : Nat → Int) (j : Nat) : Nat → Int
  | 0 => 0
  | n + 1 => laneTotalSse w x j n + chunkLaneSse w x (64 * n) j

lemma sseSide_lane (w x : Nat → Int) (hx : ∀ i, -32768 ≤ x i ∧ x i < 32768)
    (j : Nat) (hj : j < 4) (y : Nat → Int)
    (hy : 0 ≤ y j ∧ y j < 4294967296) :
    ∀ k, sseSide w x k y j = (y j + laneTotalSse w x j k) % 4294967296 := by
  intro k
  induction k with
  | zero =>
      simp only [sseSide, List.range_zero, List.foldl_nil, laneTotalSse]
      omega
  | succ n ih =>
      have hstep : sseSide w x (n + 1) y = sseChunk w x (64 * n) (sseSide w x n y) := by
        unfold sseSide
        rw [List.range_succ, List.foldl_append]
        rfl
      rw [hstep, sseChunk_lane w x _ _ j hj hx, ih]
      show _ = (y j + (laneTotalSse w x j n + chunkLaneSse w x (64 * n) j)) % 4294967296
      generalize y j = Y
      generalize laneTotalSse w x j n = T
      generalize chunkLaneSse w x (64 * n) j = C
      omega

lemma sseTail_eq (y : Nat → Int) :
    sseTail y = s32 ((y 0 + y 1 + y 2 + y 3) % 4294967296) := by
  simp only [sseTail, add32, shuffle32_2301, shufflelo32]
  norm_num
  congr 1
  generalize y 0 = a0
  generalize y 1 = a1
  generalize y 2 = a2
  generalize y 3 = a3
  omega

lemma chunk_sum_eq_sse (w x : Nat → Int) (hw : ∀ i, -128 ≤ w i ∧ w i < 128) (B : Nat) :
    chunkLaneSse w x B 0 + chunkLaneSse w x B 1 + chunkLaneSse w x B 2 +
      chunkLaneSse w x B 3 =
      ((List.range 64).map (fun r => w (B + r) * sqrTerm (x (B + r)))).sum := by
  simp (disch := exact hw _) only [chunkLaneSse, groupLane, s8_emod]
  simp only [List.sum_range_succ, List.range_zero, List.map_nil, List.sum_nil]
  norm_num [Nat.add_assoc]
  ring

lemma laneTotalSse_sum (w x : Nat → Int) (hw : ∀ i, -128 ≤ w i ∧ w i < 128) : ∀ k,
    laneTotalSse w x 0 k + laneTotalSse w x 1 k + laneTotalSse w x 2 k +
      laneTotalSse w x 3 k =
      ((List.range (64 * k)).map (fun i => w i * sqrTerm (x i))).sum := by
  intro k
  induction k with
  | zero => simp [laneTotalSse]
  | succ n ih =>
      have hr : 64 * (n + 1) = 64 * n + 64 := by ring
      rw [hr, List.range_add, List.map_append, List.sum_append, List.map_map]
      simp only [laneTotalSse, Function.comp_def]
      rw [← ih, ← chunk_sum_eq_sse w x hw (64 * n)]
      ring

/-- `Hidden::sse` computes the same `i32` as `Hidden::scalar` on inputs
of length `64 * k`, in-range `i16` inputs and `i8` weights assumed. -/
lemma sse_eq_scalar (k : Nat) (bias : Int) (wus wthem us them : Nat → Int)
    (hb : -2 ^ 31 ≤ bias ∧ bias < 2 ^ 31)
    (hwus : ∀ i, -128 ≤ wus i ∧ wus i < 128)
    (hwthem : ∀ i, -128 ≤ wthem i ∧ wthem i < 128)
    (hus : ∀ i, -32768 ≤ us i ∧ us i < 32768)
    (hthem : ∀ i, -32768 ≤ them i ∧ them i < 32768) :
    Hidden.sse k bias wus wthem us them = Hidden.scalar (64 * k) bias wus wthem us them := by
  rw [scalar_eq_wrap32 _ _ _ _ _ _ hb.1 hb.2]
  unfold Hidden.sse
  rw [sseTail_eq]
  have hy0 : ∀ j : Nat, 0 ≤ setrBias bias j ∧ setrBias bias j < 4294967296 := by
    intro j
    unfold setrBias
    split
    · exact ⟨Int.emod_nonneg _ (by norm_num), Int.emod_lt_of_pos _ (by norm_num)⟩
    · norm_num
  have hin : ∀ j, j < 4 → sseSide wus us k (setrBias bias) j =
      (setrBias bias j + laneTotalSse wus us j k) % 4294967296 := by
    intro j hj
    exact sseSide_lane wus us hus j hj _ (hy0 j) k
  have hinB : ∀ j, j < 4 → 0 ≤ sseSide wus us k (setrBias bias) j ∧
      sseSide wus us k (setrBias bias) j < 4294967296 := by
    intro j hj
    rw [hin j hj]
    exact ⟨Int.emod_nonneg _ (by norm_num), Int.emod_lt_of_pos _ (by norm_num)⟩
  have hout : ∀ j, j < 4 → sseSide wthem them k (sseSide wus us k (setrBias bias)) j =
      ((setrBias bias j + laneTotalSse wus us j k) % 4294967296 +
        laneTotalSse wthem them j k) % 4294967296 := by
    intro j hj
    rw [sseSide_lane wthem them hthem j hj _ (hinB j hj) k, hin j hj]
  rw [hout 0 (by norm_num), hout 1 (by norm_num), hout 2 (by norm_num),
    hout 3 (by norm_num)]
  simp only [setrBias]
  norm_num
  rw [s32_emod_wrap32]
  rw [← laneTotalSse_sum wus us hwus k, ← laneTotalSse_sum wthem them hwthem k]
  unfold wrap32
  generalize laneTotalSse wus us 0 k = T0
  generalize laneTotalSse wus us 1 k = T1
  generalize laneTotalSse wus us 2 k = T2
  generalize laneTotalSse wus us 3 k = T3
  generalize laneTotalSse wthem them 0 k = U0
  generalize laneTotalSse wthem them 1 k = U1
  generalize laneTotalSse wthem them 2 k = U2
  generalize laneTotalSse wthem them 3 k = U3
  omega

/-! ### Per-lane values of the NEON pipeline -/

lemma s8_small (v : Int) (h : 0 ≤ v ∧ v ≤ 127) : s8 v = v := by
  unfold s8
  omega

lemma vqrdmulh_core (c : Int) (h0 : 0 ≤ c) (h255 : c ≤ 255) :
    sat8u (s16 (sat16 ((2 * s16 (c * 8 % 65536) * s16 (c * 8 % 65536) + 32768) / 65536)
      % 65536)) = ((c * 8) ^ 2 + 16384) / 32768 := by
  interval_cases c <;> decide

lemma neon_lane_value_core (x : Int) :
    sat8u (s16 (sat16 ((2 * s16 (sat8u x * 8 % 65536) * s16 (sat8u x * 8 % 65536) + 32768)
      / 65536) % 65536)) = sqrTerm x := by
  have h0 : 0 ≤ sat8u x := by unfold sat8u; omega
  have h255 : sat8u x ≤ 255 := by unfold sat8u; omega
  rw [vqrdmulh_core (sat8u x) h0 h255]
  rfl

/-- Lane `m` of the NEON `sqrcrelu` over 16 consecutive `i16` inputs is
the scalar quantized square-ReLU of input `m`: the saturating rounding
doubling high multiply agrees with `mulhrs` on the in-range squares. -/
lemma neonSqrcrelu_lane (xv : Nat → Int) (off : Nat)
    (hx : ∀ i, -32768 ≤ xv i ∧ xv i < 32768) :
    ∀ m, m < 16 →
      neonSqrcrelu (loadI16 xv off) (loadI16 xv (off + 8)) m = sqrTerm (xv (off + m)) := by
  intro m hm
  interval_cases m
  all_goals
    simp only [neonSqrcrelu, vcombine8, vqmovun16, vmovl8, vqrdmulh16, slli16, loadI16]
    norm_num [Nat.add_assoc]
    rw [s16_emod _ (hx _)]
    exact neon_lane_value_core _

lemma vdot_lane (p q y : Nat → Int) (j : Nat)
    (hp : ∀ m, m < 16 → 0 ≤ p m ∧ p m ≤ 127) (hj : j < 4) :
    vdot32 y p q j =
      (y j + (p (4 * j) * s8 (q (4 * j)) + p (4 * j + 1) * s8 (q (4 * j + 1)) +
        p (4 * j + 2) * s8 (q (4 * j + 2)) + p (4 * j + 3) * s8 (q (4 * j + 3))))
        % 4294967296 := by
  unfold vdot32
  rw [s8_small _ (hp (4 * j) (by omega)), s8_small _ (hp (4 * j + 1) (by omega)),
    s8_small _ (hp (4 * j + 2) (by omega)), s8_small _ (hp (4 * j + 3) (by omega))]

lemma neonChunk_lane (w x : Nat → Int) (off : Nat) (y : Nat → Int) (j : Nat) (hj : j < 4)
    (hx : ∀ i, -32768 ≤ x i ∧ x i < 32768) :
    neonChunk w x off y j = (y j + chunkLaneSse w x off j) % 4294967296 := by
  have hp : ∀ (o : Nat) (m : Nat), m < 16 →
      0 ≤ neonSqrcrelu (loadI16 x o) (loadI16 x (o + 8)) m ∧
        neonSqrcrelu (loadI16 x o) (loadI16 x (o + 8)) m ≤ 127 := by
    intro o m hm
    rw [neonSqrcrelu_lane x o hx m hm]
    exact sqrTerm_bounds _
  simp only [neonChunk]
  have h24 : off + 24 = off + 16 + 8 := by omega
  have h40 : off + 40 = off + 32 + 8 := by omega
  have h56 : off + 56 = off + 48 + 8 := by omega
  rw [h24, h40, h56]
  rw [vdot_lane _ _ _ j (hp _) hj, vdot_lane _ _ _ j (hp _) hj,
    vdot_lane _ _ _ j (hp _) hj, vdot_lane _ _ _ j (hp _) hj]
  simp (disch := omega) only [neonSqrcrelu_lane x _ hx]
  simp only [loadI8]
  unfold chunkLaneSse groupLane
  generalize sqrTerm (x (off + (4 * j))) * s8 (w (off + (4 * j)) % 256) = A1
  generalize sqrTerm (x (off + (4 * j + 1))) * s8 (w (off + (4 * j + 1)) % 256) = A2
  generalize sqrTerm (x (off + (4 * j + 2))) * s8 (w (off + (4 * j + 2)) % 256) = A3
  generalize sqrTerm (x (off + (4 * j + 3))) * s8 (w (off + (4 * j + 3)) % 256) = A4
  generalize sqrTerm (x (off + 16 + (4 * j))) * s8 (w (off + 16 + (4 * j)) % 256) = B1
  generalize sqrTerm (x (off + 16 + (4 * j + 1))) * s8 (w (off + 16 + (4 * j + 1)) % 256) = B2
  generalize sqrTerm (x (off + 16 + (4 * j + 2))) * s8 (w (off + 16 + (4 * j + 2)) % 256) = B3
  generalize sqrTerm (x (off + 16 + (4 * j + 3))) * s8 (w (off + 16 + (4 * j + 3)) % 256) = B4
  generalize sqrTerm (x (off + 32 + (4 * j))) * s8 (w (off + 32 + (4 * j)) % 256) = C1
  generalize sqrTerm (x (off + 32 + (4 * j + 1))) * s8 (w (off + 32 + (4 * j + 1)) % 256) = C2
  generalize sqrTerm (x (off + 32 + (4 * j + 2))) * s8 (w (off + 32 + (4 * j + 2)) % 256) = C3
  generalize sqrTerm (x (off + 32 + (4 * j + 3))) * s8 (w (off + 32 + (4 * j + 3)) % 256) = C4
  generalize sqrTerm (x (off + 48 + (4 * j))) * s8 (w (off + 48 + (4 * j)) % 256) = D1
  generalize sqrTerm (x (off + 48 + (4 * j + 1))) * s8 (w (off + 48 + (4 * j + 1)) % 256) = D2
  generalize sqrTerm (x (off + 48 + (4 * j + 2))) * s8 (w (off + 48 + (4 * j + 2)) % 256) = D3
  generalize sqrTerm (x (off + 48 + (4 * j + 3))) * s8 (w (off + 48 + (4 * j + 3)) % 256) = D4
  omega

lemma neonSide_lane (w x : Nat → Int) (hx : ∀ i, -32768 ≤ x i ∧ x i < 32768)
    (j : Nat) (hj : j < 4) (y : Nat → Int)
    (hy : 0 ≤ y j ∧ y j < 4294967296) :
    ∀ k, neonSide w x k y j = (y j + laneTotalSse w x j k) % 4294967296 := by
  intro k
  induction k with
  | zero =>
      simp only [neonSide, List.range_zero, List.foldl_nil, laneTotalSse]
      omega
  | succ n ih =>
      have hstep : neonSide w x (n + 1) y = neonChunk w x (64 * n) (neonSide w x n y) := by
        unfold neonSide
        rw [List.range_succ, List.foldl_append]
        rfl
      rw [hstep, neonChunk_lane w x _ _ j hj hx, ih]
      show _ = (y j + (laneTotalSse w x j n + chunkLaneSse w x (64 * n) j)) % 4294967296
      generalize y j = Y
      generalize laneTotalSse w x j n = T
      generalize chunkLaneSse w x (64 * n) j = C
      omega

/-- `Hidden::neon` computes the same `i32` as `Hidden::scalar` on inputs
of length `64 * k`, in-range `i16` inputs and `i8` weights assumed. -/
lemma neon_eq_scalar (k : Nat) (bias : Int) (wus wthem us them : Nat → Int)
    (hb : -2 ^ 31 ≤ bias ∧ bias < 2 ^ 31)
    (hwus : ∀ i, -128 ≤ wus i ∧ wus i < 128)
    (hwthem : ∀ i, -128 ≤ wthem i ∧ wthem i < 128)
    (hus : ∀ i, -32768 ≤ us i ∧ us i < 32768)
    (hthem : ∀ i, -32768 ≤ them i ∧ them i < 32768) :
    Hidden.neon k bias wus wthem us them = Hidden.scalar (64 * k) bias wus wthem us them := by
  rw [scalar_eq_wrap32 _ _ _ _ _ _ hb.1 hb.2]
  unfold Hidden.neon neonTail
  have hy0 : ∀ j : Nat, 0 ≤ setrBias bias j ∧ setrBias bias j < 4294967296 := by
    intro j
    unfold setrBias
    split
    · exact ⟨Int.emod_nonneg _ (by norm_num), Int.emod_lt_of_pos _ (by norm_num)⟩
    · norm_num
  have hin : ∀ j, j < 4 → neonSide wus us k (setrBias bias) j =
      (setrBias bias j + laneTotalSse wus us j k) % 4294967296 := by
    intro j hj
    exact neonSide_lane wus us hus j hj _ (hy0 j) k
  have hinB : ∀ j, j < 4 → 0 ≤ neonSide wus us k (setrBias bias) j ∧
      neonSide wus us k (setrBias bias) j < 4294967296 := by
    intro j hj
    rw [hin j hj]
    exact ⟨Int.emod_nonneg _ (by norm_num), Int.emod_lt_of_pos _ (by norm_num)⟩
  have hout : ∀ j, j < 4 → neonSide wthem them k (neonSide wus us k (setrBias bias)) j =
      ((setrBias bias j + laneTotalSse wus us j k) % 4294967296 +
        laneTotalSse wthem them j k) % 4294967296 := by
    intro j hj
    rw [neonSide_lane wthem them hthem j hj _ (hinB j hj) k, hin j hj]
  rw [hout 0 (by norm_num), hout 1 (by norm_num), hout 2 (by norm_num),
    hout 3 (by norm_num)]
  simp only [setrBias]
  norm_num
  rw [s32_emod_wrap32]
  rw [← laneTotalSse_sum wus us hwus k, ← laneTotalSse_sum wthem them hwthem k]
  unfold wrap32
  generalize laneTotalSse wus us 0 k = T0
  generalize laneTotalSse wus us 1 k = T1
  generalize laneTotalSse wus us 2 k = T2
  generalize laneTotalSse wus us 3 k = T3
  generalize laneTotalSse wthem them 0 k = U0
  generalize laneTotalSse wthem them 1 k = U1
  generalize laneTotalSse wthem them 2 k = U2
  generalize laneTotalSse wthem them 3 k = U3
  omega

/-- Claim C7: on inputs of length `N = 128 * k` — with the value ranges
the Rust types give (`i16` inputs, `i8` weights, `i32` bias) — each of
the three SIMD backends `Hidden::avx2`, `Hidden::sse` and `Hidden::neon`
returns bit-exactly the `i32` of the scalar reference `Hidden::scalar`
(the SSE and NEON loops walk `N = 128k = 64 * 2k` in 64-element
chunks). -/
theorem hidden_simd_scalar_equivalence (k : Nat) (bias : Int)
    (wus wthem us them : Nat → Int)
    (hb : -2 ^ 31 ≤ bias ∧ bias < 2 ^ 31)
    (hwus : ∀ i, -128 ≤ wus i ∧ wus i < 128)
    (hwthem : ∀ i, -128 ≤ wthem i ∧ wthem i < 128)
    (hus : ∀ i, -32768 ≤ us i ∧ us i < 32768)
    (hthem : ∀ i, -32768 ≤ them i ∧ them i < 32768) :
    Hidden.avx2 k bias wus wthem us them = Hidden.scalar (128 * k) bias wus wthem us them ∧
    Hidden.sse (2 * k) bias wus wthem us them =
      Hidden.scalar (128 * k) bias wus wthem us them ∧
    Hidden.neon (2 * k) bias wus wthem us them =
      Hidden.scalar (128 * k) bias wus wthem us them := by
  refine ⟨avx2_eq_scalar k bias wus wthem us them hb hwus hwthem hus hthem, ?_, ?_⟩
  · have h := sse_eq_scalar (2 * k) bias wus wthem us them hb hwus hwthem hus hthem
    rwa [show 64 * (2 * k) = 128 * k from by ring] at h
  · have h := neon_eq_scalar (2 * k) bias wus wthem us them hb hwus hwthem hus hthem
    rwa [show 64 * (2 * k) = 128 * k from by ring] at h

/-- Weight vector for the `hidden_simd_scalar_equivalence` witness. -/
def w7a : Nat → Int := fun i => ((i % 200 : Nat) : Int) - 100

/-- Input vector for the `hidden_simd_scalar_equivalence` witness. -/
def w7x : Nat → Int := fun i => ((i * 7 % 500 : Nat) : Int) * 100 - 20000

/-- Witness for `hidden_simd_scalar_equivalence` at `k = 1`, bias `7`,
and concrete in-range weight and input vectors. -/
theorem hidden_simd_scalar_equivalence_witness :
    ((-2 ^ 31 ≤ (7 : Int) ∧ (7 : Int) < 2 ^ 31) ∧
      (∀ i, -128 ≤ w7a i ∧ w7a i < 128) ∧
      (∀ i, -32768 ≤ w7x i ∧ w7x i < 32768)) ∧
    (Hidden.avx2 1 7 w7a w7a w7x w7x = Hidden.scalar (128 * 1) 7 w7a w7a w7x w7x ∧
      Hidden.sse (2 * 1) 7 w7a w7a w7x w7x = Hidden.scalar (128 * 1) 7 w7a w7a w7x w7x ∧
      Hidden.neon (2 * 1) 7 w7a w7a w7x w7x = Hidden.scalar (128 * 1) 7 w7a w7a w7x w7x) :=
  have hw : ∀ i, -128 ≤ w7a i ∧ w7a i < 128 := fun i => by
    unfold w7a
    have h : i % 200 < 200 := Nat.mod_lt _ (by norm_num)
    omega
  have hx : ∀ i, -32768 ≤ w7x i ∧ w7x i < 32768 := fun i => by
    unfold w7x
    have h : i * 7 % 500 < 500 := Nat.mod_lt _ (by norm_num)
    omega
  ⟨⟨by norm_num, hw, hx⟩,
    hidden_simd_scalar_equivalence 1 7 w7a w7a w7x w7x (by norm_num) hw hw hx hx⟩

end Cinder
